import Mathlib

/-!
Shallow embedding of the `rs-promethee-core` crate (PROMETHEE II multi-criteria
ranking).  Machine floating point (`f64`) is modelled by `ℚ`; a Rust `panic!` /
`unimplemented!` / `unwrap` failure is modelled by `Option` with `none` for the
panicking run.  Definitions follow `src/generalized_criterion.rs`,
`src/alternatives.rs` and `src/lib.rs`.
-/

namespace Promethee

/-- `GeneralizedCriterion` enum from `src/generalized_criterion.rs`. -/
inductive GeneralizedCriterion where
  | UShape (p : ℚ)
  | VShape (p : ℚ)
  | Linear (q p : ℚ)
  | Usual
  deriving DecidableEq, Repr

/-- `normalize_linear` from `src/generalized_criterion.rs`. -/
def normalize_linear (q p d_ij : ℚ) : ℚ :=
  if d_ij < q then 0 else if d_ij < p then (d_ij - q) / (p - q) else 1

/-- `normalize_v_shape` from `src/generalized_criterion.rs`. -/
def normalize_v_shape (p d_ij : ℚ) : ℚ :=
  if d_ij < 0 then 0 else if d_ij < p then d_ij / p else 1

/-- `GeneralizedCriterion::normalisation`. -/
def GeneralizedCriterion.normalisation : GeneralizedCriterion → ℚ → ℚ
  | .VShape p, d_ij => normalize_v_shape p d_ij
  | .Linear q p, d_ij => normalize_linear q p d_ij
  | .Usual, d_ij => if 0 < d_ij then 1 else 0
  | .UShape p, d_ij => if d_ij < p then 0 else 1

/-- `Alternative` from `src/alternatives.rs`. -/
structure Alternative where
  name : String
  performances : List ℚ
  deriving DecidableEq, Repr

/-- `Alternative::perf` (`self.performances.get(k)`). -/
def Alternative.perf (a : Alternative) (k : ℕ) : Option ℚ :=
  a.performances.get? k

/-- `Alternative::change_perf`; `self.performances[k] = val` panics (`none`)
when `k` is out of range. -/
def Alternative.change_perf (a : Alternative) (k : ℕ) (val : ℚ) : Option Alternative :=
  if k < a.performances.length then
    some { a with performances := a.performances.set k val }
  else none

/-- `OptimizationDirection` from `src/alternatives.rs`. -/
inductive OptimizationDirection where
  | Min
  | Max
  deriving DecidableEq, Repr

/-- `AlternativeTable` from `src/alternatives.rs`. -/
structure AlternativeTable where
  alternatives : List Alternative
  criteria_names : List String
  criteria_direction : List OptimizationDirection
  deriving DecidableEq, Repr

/-- `AlternativeTable::n`. -/
def AlternativeTable.n (t : AlternativeTable) : ℕ :=
  t.alternatives.length

/-- `AlternativeTable::q` (`self.alternatives[0].perfs().len()`; the Rust index
panics on an empty table, here the default alternative gives length `0`). -/
def AlternativeTable.q (t : AlternativeTable) : ℕ :=
  (t.alternatives.headD { name := "", performances := [] }).performances.length

/-- `AlternativeTable::new`: panics on an empty list or inconsistent
performance-vector lengths. -/
def AlternativeTable.new (alternatives : List Alternative) : Option AlternativeTable :=
  if alternatives = [] then none
  else if alternatives.any (fun alt =>
      alt.performances.length ≠
        (alternatives.headD { name := "", performances := [] }).performances.length) then none
  else
    some
      { alternatives := alternatives
        criteria_names :=
          (List.range
            (alternatives.headD { name := "", performances := [] }).performances.length).map
            (fun k => "Criterion " ++ toString (k + 1))
        criteria_direction :=
          List.replicate
            (alternatives.headD { name := "", performances := [] }).performances.length
            OptimizationDirection.Max }

/-- `AlternativeTable::performance` (`self.alternatives.get(i)?.perf(k)`). -/
def AlternativeTable.performance (t : AlternativeTable) (i k : ℕ) : Option ℚ :=
  (t.alternatives.get? i).bind (fun a => a.perf k)

/-- `AlternativeTable::criterion`: the full column `k` (each entry read with
`alt.perf(k).copied().unwrap()`, in range whenever the table is rectangular). -/
def AlternativeTable.criterion (t : AlternativeTable) (k : ℕ) : Option (List ℚ) :=
  if k < t.q then some (t.alternatives.map (fun a => (a.perf k).getD 0)) else none

/-- `AlternativeTable::set_performance`: `if let Some(alt) = get_mut(i)` makes an
out-of-range `i` a silent no-op; an in-range `i` with out-of-range `k` panics
inside `change_perf`. -/
def AlternativeTable.set_performance (t : AlternativeTable) (i k : ℕ) (val : ℚ) :
    Option AlternativeTable :=
  match t.alternatives.get? i with
  | some a =>
      (a.change_perf k val).map (fun a' => { t with alternatives := t.alternatives.set i a' })
  | none => some t

/-- `AlternativeTable::shift_performance`: same shape as `set_performance`, with
`alt.perf(k).unwrap() + shift` as the new value. -/
def AlternativeTable.shift_performance (t : AlternativeTable) (i k : ℕ) (shift : ℚ) :
    Option AlternativeTable :=
  match t.alternatives.get? i with
  | some a =>
      (a.perf k).bind (fun v =>
        (a.change_perf k (v + shift)).map
          (fun a' => { t with alternatives := t.alternatives.set i a' }))
  | none => some t

/-- `mapMOpt f l` models collecting an iterator of fallible element computations:
the first `none` (panic) aborts the whole run. -/
def mapMOpt {α β : Type} (f : α → Option β) : List α → Option (List β)
  | [] => some []
  | x :: xs =>
      match f x, mapMOpt f xs with
      | some y, some ys => some (y :: ys)
      | _, _ => none

/-- `AlternativeTable::swap_criteria_direction`: panics on an invalid criterion
index, toggles the recorded direction and negates column `k` in place
(`alt.perf(k).unwrap()` then `change_perf`). -/
def AlternativeTable.swap_criteria_direction (t : AlternativeTable) (k : ℕ) :
    Option AlternativeTable :=
  if k < t.criteria_direction.length then
    (mapMOpt (fun a => (a.perf k).bind (fun v => a.change_perf k (-v))) t.alternatives).map
      (fun alts =>
        { t with
          criteria_direction :=
            t.criteria_direction.set k
              (match t.criteria_direction.getD k OptimizationDirection.Max with
                | OptimizationDirection.Min => OptimizationDirection.Max
                | OptimizationDirection.Max => OptimizationDirection.Min)
          alternatives := alts })
  else none

/-- `Promethee2Result` from `src/lib.rs`. -/
structure Promethee2Result where
  positive_flows : List ℚ
  unicrit_positive_flows : List (List ℚ)
  negative_flows : List ℚ
  unicrit_negative_flows : List (List ℚ)
  deriving DecidableEq, Repr

/-- `Promethee2Result::net_flows` (`pos.iter().zip(neg).map(|(p, n)| p - n)`). -/
def Promethee2Result.net_flows (r : Promethee2Result) : List ℚ :=
  List.zipWith (fun p n => p - n) r.positive_flows r.negative_flows

/-- Stable ascending insertion for `sortByKey`: an element is placed after all
existing elements whose key is `≤` its key. -/
def insertLe {α : Type} (key : α → ℚ) (x : α) : List α → List α
  | [] => [x]
  | y :: ys => if key y ≤ key x then y :: insertLe key x ys else x :: y :: ys

/-- A stable ascending comparison sort keyed by `key`, modelling the sorts the
crate performs through `f64::partial_cmp` (`itertools::sorted_by` is stable;
`sort_unstable_by` runs plain insertion sort on the small slices exercised
here, which also preserves the order of equal keys). -/
def sortByKey {α : Type} (key : α → ℚ) (l : List α) : List α :=
  l.foldl (fun acc x => insertLe key x acc) []

/-- `iter().enumerate()` starting at index `i`. -/
def enumFromQ {α : Type} (i : ℕ) : List α → List (ℕ × α)
  | [] => []
  | x :: xs => (i, x) :: enumFromQ (i + 1) xs

/-- `Promethee2Result::ranked_alts`: enumerate the net flows, stable-sort
ascending by flow value, keep the indices, and reverse. -/
def Promethee2Result.ranked_alts (r : Promethee2Result) : List ℕ :=
  ((sortByKey (fun x => x.2) (enumFromQ 0 r.net_flows)).map Prod.fst).reverse

/-- `PrometheeProblem` from `src/lib.rs`. -/
structure PrometheeProblem where
  n : ℕ
  q : ℕ
  alt_table : AlternativeTable
  argsorted_eval_matrix : List (Option (List ℕ))
  generalized_criteria : List GeneralizedCriterion
  weights : List ℚ
  deriving DecidableEq, Repr

/-- The closure `fks` used throughout `PrometheeProblem`:
`alt_table.performance(alt, k).unwrap()` (in range in every reachable use). -/
def fksOf (t : AlternativeTable) (k : ℕ) : ℕ → ℚ :=
  fun alt => (t.performance alt k).getD 0

/-- `(0..n).collect()` argsorted ascending by `fks` (`sort_unstable_by` with
`partial_cmp`). -/
def argsortAsc (fks : ℕ → ℚ) (n : ℕ) : List ℕ :=
  sortByKey fks (List.range n)

/-- `PrometheeProblem::new`: normalizes the weights, validates the criteria and
weight counts, and builds the ascending-sort cache, with the `Usual` arm
storing no cache and the wildcard arm (reached by `UShape`) hitting
`unimplemented!` (`none`). -/
def PrometheeProblem.new (alt_table : AlternativeTable)
    (generalized_criteria : List GeneralizedCriterion) (weights : List ℚ) :
    Option PrometheeProblem :=
  let tot_w : ℚ := weights.sum
  let weights' := weights.map (fun w => w / tot_w)
  let n := alt_table.n
  let q := alt_table.q
  if generalized_criteria.length ≠ q then none
  else if weights'.length ≠ q then none
  else
    (mapMOpt (fun k =>
        match generalized_criteria.getD k GeneralizedCriterion.Usual with
        | GeneralizedCriterion.Linear _ _ | GeneralizedCriterion.VShape _ =>
            some (some (argsortAsc (fksOf alt_table k) n))
        | GeneralizedCriterion.Usual => some none
        | _ => none)
      (List.range q)).map
      (fun m =>
        { n := n
          q := q
          alt_table := alt_table
          argsorted_eval_matrix := m
          generalized_criteria := generalized_criteria
          weights := weights' })

/-- First inner `while` of `fast_pos_unicriterion_flow`: pop window elements
whose performance has crossed `low` into full preference. -/
def fast_pos_evict (fks : ℕ → ℚ) (low : ℚ) :
    List ℕ → ℚ → ℕ → List ℕ × ℚ × ℕ
  | [], s, card_l => ([], s, card_l)
  | x :: w, s, card_l =>
      if fks x ≤ low then fast_pos_evict fks low w (s - fks x) (card_l + 1)
      else (x :: w, s, card_l)

/-- Second inner `while` of `fast_pos_unicriterion_flow`: admit pending elements
with performance `≤ up`, into the window when `≥ low`, otherwise directly into
the full-preference count. -/
def fast_pos_admit (fks : ℕ → ℚ) (low up : ℚ) :
    List ℕ → List ℕ → ℚ → ℕ → List ℕ × List ℕ × ℚ × ℕ
  | [], w, s, card_l => ([], w, s, card_l)
  | x :: r, w, s, card_l =>
      if fks x ≤ up then
        if low ≤ fks x then fast_pos_admit fks low up r (w ++ [x]) (s + fks x) card_l
        else fast_pos_admit fks low up r w s (card_l + 1)
      else (x :: r, w, s, card_l)

/-- Main `for` loop of `fast_pos_unicriterion_flow`.  State: remaining anchors,
window `w`, pending queue `r`, full-preference count `card_l`, window sum `s`,
and the flow vector being filled. -/
def fast_pos_loop (n : ℕ) (fks : ℕ → ℚ) (qt p : ℚ) :
    List ℕ → List ℕ → List ℕ → ℕ → ℚ → List ℚ → List ℚ
  | [], _, _, _, _, flows => flows
  | idx :: anchors, w, r, card_l, s, flows =>
      let low := fks idx - p
      let up := fks idx - qt
      let ev := fast_pos_evict fks low w s card_l
      let ad := fast_pos_admit fks low up r ev.1 ev.2.1 ev.2.2
      let const_fact : ℚ := if p ≠ qt then (fks idx - qt) / (p - qt) else 0
      let last_term : ℚ := if p ≠ qt then -ad.2.2.1 / (p - qt) else 0
      let val := 1 / ((n : ℚ) - 1) *
        ((ad.2.2.2 : ℚ) + (ad.2.1.length : ℚ) * const_fact + last_term)
      fast_pos_loop n fks qt p anchors ad.2.1 ad.1 ad.2.2.2 ad.2.2.1 (flows.set idx val)

/-- `PrometheeProblem::fast_pos_unicriterion_flow` from `src/lib.rs`. -/
def PrometheeProblem.fast_pos_unicriterion_flow (P : PrometheeProblem) (k : ℕ)
    (qt p : ℚ) (argsorted_fks : List ℕ) : List ℚ :=
  fast_pos_loop P.n (fksOf P.alt_table k) qt p argsorted_fks [] argsorted_fks 0 0
    (List.replicate P.n 0)

/-- First inner `while` of `fast_neg_unicriterion_flow`; the window deque is
kept back-first (its Lean head is the Rust `back()`). -/
def fast_neg_evict (fks : ℕ → ℚ) (up : ℚ) :
    List ℕ → ℚ → ℕ → List ℕ × ℚ × ℕ
  | [], s, card_r => ([], s, card_r)
  | x :: w, s, card_r =>
      if up ≤ fks x then fast_neg_evict fks up w (s - fks x) (card_r + 1)
      else (x :: w, s, card_r)

/-- Second inner `while` of `fast_neg_unicriterion_flow`; `l` is kept back-first
and `push_front` on the Rust window appends to the back-first list. -/
def fast_neg_admit (fks : ℕ → ℚ) (low up : ℚ) :
    List ℕ → List ℕ → ℚ → ℕ → List ℕ × List ℕ × ℚ × ℕ
  | [], w, s, card_r => ([], w, s, card_r)
  | x :: l, w, s, card_r =>
      if low ≤ fks x then
        if fks x ≤ up then fast_neg_admit fks low up l (w ++ [x]) (s + fks x) card_r
        else fast_neg_admit fks low up l w s (card_r + 1)
      else (x :: l, w, s, card_r)

/-- Main `for` loop of `fast_neg_unicriterion_flow` (anchors are the argsorted
indices in reverse). -/
def fast_neg_loop (n : ℕ) (fks : ℕ → ℚ) (qt p : ℚ) :
    List ℕ → List ℕ → List ℕ → ℕ → ℚ → List ℚ → List ℚ
  | [], _, _, _, _, flows => flows
  | idx :: anchors, l, w, card_r, s, flows =>
      let low := fks idx + qt
      let up := fks idx + p
      let ev := fast_neg_evict fks up w s card_r
      let ad := fast_neg_admit fks low up l ev.1 ev.2.1 ev.2.2
      let const_fact : ℚ := if p ≠ qt then (fks idx + qt) / (p - qt) else 0
      let last_term : ℚ := if p ≠ qt then ad.2.2.1 / (p - qt) else 0
      let val := 1 / ((n : ℚ) - 1) *
        ((ad.2.2.2 : ℚ) - (ad.2.1.length : ℚ) * const_fact + last_term)
      fast_neg_loop n fks qt p anchors ad.1 ad.2.1 ad.2.2.2 ad.2.2.1 (flows.set idx val)

/-- `PrometheeProblem::fast_neg_unicriterion_flow` from `src/lib.rs`. -/
def PrometheeProblem.fast_neg_unicriterion_flow (P : PrometheeProblem) (k : ℕ)
    (qt p : ℚ) (argsorted_fks : List ℕ) : List ℚ :=
  fast_neg_loop P.n (fksOf P.alt_table k) qt p argsorted_fks.reverse
    argsorted_fks.reverse [] 0 0 (List.replicate P.n 0)

/-- `PrometheeProblem::fast_unicriterion_flows`: dispatch the thresholds
(`panic` on a non-fast criterion), read the cached argsort (`expect`), and run
both fast flows. -/
def PrometheeProblem.fast_unicriterion_flows (P : PrometheeProblem) (k : ℕ) :
    Option (List ℚ × List ℚ) :=
  if P.q ≤ k then none
  else
    match P.generalized_criteria.getD k GeneralizedCriterion.Usual with
    | GeneralizedCriterion.VShape p =>
        (P.argsorted_eval_matrix.getD k none).map (fun args =>
          (P.fast_pos_unicriterion_flow k 0 p args, P.fast_neg_unicriterion_flow k 0 p args))
    | GeneralizedCriterion.Linear qt p =>
        (P.argsorted_eval_matrix.getD k none).map (fun args =>
          (P.fast_pos_unicriterion_flow k qt p args, P.fast_neg_unicriterion_flow k qt p args))
    | _ => none

/-- The `n × n` matrix of signed differences built in `unicriterion_flows`. -/
def dist_mat_of (col : List ℚ) : List (List ℚ) :=
  col.map (fun a_i => col.map (fun a_j => a_i - a_j))

/-- `PrometheeProblem::slow_unicriterion_flows`: per row, fold the pair of
normalised sums and divide by `n - 1`, then unzip. -/
def slow_unicriterion_flows (n : ℕ) (dist_mat : List (List ℚ))
    (generalized_criterion : GeneralizedCriterion) : List ℚ × List ℚ :=
  (dist_mat.map (fun di =>
      let acc := di.foldl
        (fun ac dij =>
          (ac.1 + generalized_criterion.normalisation dij,
           ac.2 + generalized_criterion.normalisation (-dij)))
        (0, 0)
      (acc.1 / ((n : ℚ) - 1), acc.2 / ((n : ℚ) - 1)))).unzip

/-- `PrometheeProblem::unicriterion_flows`: panic on a bad criterion index,
fast path for `VShape`/`Linear`, otherwise the quadratic path on the signed
difference matrix. -/
def PrometheeProblem.unicriterion_flows (P : PrometheeProblem) (k : ℕ) :
    Option (List ℚ × List ℚ) :=
  if P.q ≤ k then none
  else
    match P.generalized_criteria.getD k GeneralizedCriterion.Usual with
    | GeneralizedCriterion.VShape _ | GeneralizedCriterion.Linear _ _ =>
        P.fast_unicriterion_flows k
    | _ =>
        (P.alt_table.criterion k).map (fun col =>
          slow_unicriterion_flows P.n (dist_mat_of col)
            (P.generalized_criteria.getD k GeneralizedCriterion.Usual))

/-- `PrometheeProblem::solve`: one pair of unicriterion flow vectors per
criterion (`unwrap` modelled by `mapMOpt`), with the weighted accumulation of
the global flow vectors done in criterion order. -/
def PrometheeProblem.solve (P : PrometheeProblem) : Option Promethee2Result :=
  (mapMOpt (fun k => P.unicriterion_flows k) (List.range P.q)).map (fun ufs =>
    { positive_flows :=
        (enumFromQ 0 ufs).foldl
          (fun acc kf => List.zipWith (fun a x => a + P.weights.getD kf.1 0 * x) acc kf.2.1)
          (List.replicate P.n 0)
      unicrit_positive_flows := ufs.map Prod.fst
      negative_flows :=
        (enumFromQ 0 ufs).foldl
          (fun acc kf => List.zipWith (fun a x => a + P.weights.getD kf.1 0 * x) acc kf.2.2)
          (List.replicate P.n 0)
      unicrit_negative_flows := ufs.map Prod.snd })

end Promethee

namespace Promethee

/-! ### Concrete instances used by claim-level witnesses and counterexamples -/

/-- Two alternatives with performances `0` and `1` on a single criterion. -/
def exTable2 : AlternativeTable :=
  { alternatives := [{ name := "A", performances := [0] },
                     { name := "B", performances := [1] }]
    criteria_names := ["Criterion 1"]
    criteria_direction := [OptimizationDirection.Max] }

/-- The problem `exTable2` + `Linear{q=1,p=1}` (degenerate ramp). -/
def exProblem211 : PrometheeProblem :=
  { n := 2, q := 1, alt_table := exTable2, argsorted_eval_matrix := [some [0, 1]]
    generalized_criteria := [GeneralizedCriterion.Linear 1 1], weights := [1] }

/-- The problem `exTable2` + `Linear{q=5,p=5}` (degenerate ramp, no pair at
distance exactly 5). -/
def exProblem255 : PrometheeProblem :=
  { n := 2, q := 1, alt_table := exTable2, argsorted_eval_matrix := [some [0, 1]]
    generalized_criteria := [GeneralizedCriterion.Linear 5 5], weights := [1] }

/-- The problem `exTable2` + `Usual` built from the all-zero weight vector
(the stored weight is `0/0`, which `ℚ` renders as `0` and `f64` as NaN). -/
def exProblemZeroW : PrometheeProblem :=
  { n := 2, q := 1, alt_table := exTable2, argsorted_eval_matrix := [none]
    generalized_criteria := [GeneralizedCriterion.Usual], weights := [0] }

/-- The problem `exTable2` + `Linear{q=2,p=1}` (reversed thresholds, q > p). -/
def exProblemQ21 : PrometheeProblem :=
  { n := 2, q := 1, alt_table := exTable2, argsorted_eval_matrix := [some [0, 1]]
    generalized_criteria := [GeneralizedCriterion.Linear 2 1], weights := [1] }

/-- Three alternatives `0`, `1`, `1` on a single criterion. -/
def exTable3 : AlternativeTable :=
  { alternatives := [{ name := "A", performances := [0] },
                     { name := "B", performances := [1] },
                     { name := "C", performances := [1] }]
    criteria_names := ["Criterion 1"]
    criteria_direction := [OptimizationDirection.Max] }

/-- `exTable3` after flipping criterion 0's direction. -/
def exTable3neg : AlternativeTable :=
  { alternatives := [{ name := "A", performances := [0] },
                     { name := "B", performances := [-1] },
                     { name := "C", performances := [-1] }]
    criteria_names := ["Criterion 1"]
    criteria_direction := [OptimizationDirection.Min] }

/-- The problem `exTable3` + `Linear{q=1,p=1}`. -/
def exProblem3 : PrometheeProblem :=
  { n := 3, q := 1, alt_table := exTable3, argsorted_eval_matrix := [some [0, 1, 2]]
    generalized_criteria := [GeneralizedCriterion.Linear 1 1], weights := [1] }

/-- The problem `exTable3neg` + `Linear{q=1,p=1}`. -/
def exProblem3neg : PrometheeProblem :=
  { n := 3, q := 1, alt_table := exTable3neg, argsorted_eval_matrix := [some [1, 2, 0]]
    generalized_criteria := [GeneralizedCriterion.Linear 1 1], weights := [1] }

/-- Three alternatives `3`, `2`, `2` on a single criterion. -/
def exTableVS : AlternativeTable :=
  { alternatives := [{ name := "A", performances := [3] },
                     { name := "B", performances := [2] },
                     { name := "C", performances := [2] }]
    criteria_names := ["Criterion 1"]
    criteria_direction := [OptimizationDirection.Max] }

/-- `exTableVS` after flipping criterion 0's direction. -/
def exTableVSneg : AlternativeTable :=
  { alternatives := [{ name := "A", performances := [-3] },
                     { name := "B", performances := [-2] },
                     { name := "C", performances := [-2] }]
    criteria_names := ["Criterion 1"]
    criteria_direction := [OptimizationDirection.Min] }

/-- The problem `exTableVS` + `VShape{p=3}`. -/
def exProblemVS : PrometheeProblem :=
  { n := 3, q := 1, alt_table := exTableVS, argsorted_eval_matrix := [some [1, 2, 0]]
    generalized_criteria := [GeneralizedCriterion.VShape 3], weights := [1] }

/-- The problem `exTableVSneg` + `VShape{p=3}`. -/
def exProblemVSneg : PrometheeProblem :=
  { n := 3, q := 1, alt_table := exTableVSneg, argsorted_eval_matrix := [some [0, 1, 2]]
    generalized_criteria := [GeneralizedCriterion.VShape 3], weights := [1] }

/-- `exProblemVS.solve`. -/
def exResultVS : Promethee2Result :=
  { positive_flows := [1/3, 0, 0], unicrit_positive_flows := [[1/3, 0, 0]]
    negative_flows := [0, 1/6, 1/6], unicrit_negative_flows := [[0, 1/6, 1/6]] }

/-- `exProblemVSneg.solve`. -/
def exResultVSneg : Promethee2Result :=
  { positive_flows := [0, 1/6, 1/6], unicrit_positive_flows := [[0, 1/6, 1/6]]
    negative_flows := [1/3, 0, 0], unicrit_negative_flows := [[1/3, 0, 0]] }

/-- A table with one alternative and zero criteria. -/
def exTableQ0 : AlternativeTable :=
  { alternatives := [{ name := "A", performances := [] }]
    criteria_names := []
    criteria_direction := [] }

/-- The problem built from `exTableQ0` with the empty criterion and weight
lists. -/
def exProblemQ0 : PrometheeProblem :=
  { n := 1, q := 0, alt_table := exTableQ0, argsorted_eval_matrix := []
    generalized_criteria := [], weights := [] }

/-- One alternative over two criteria. -/
def exTableW2 : AlternativeTable :=
  { alternatives := [{ name := "A", performances := [0, 0] }]
    criteria_names := ["Criterion 1", "Criterion 2"]
    criteria_direction := [OptimizationDirection.Max, OptimizationDirection.Max] }

/-- The problem built from `exTableW2` with input weights `[2, 2]`. -/
def exProblemW2 : PrometheeProblem :=
  { n := 1, q := 2, alt_table := exTableW2, argsorted_eval_matrix := [none, none]
    generalized_criteria := [GeneralizedCriterion.Usual, GeneralizedCriterion.Usual]
    weights := [1/2, 1/2] }

end Promethee

namespace Promethee

/-! ## Small list helpers -/

theorem sum_map_div {α : Type} (l : List α) (f : α → ℚ) (c : ℚ) :
    (l.map (fun x => f x / c)).sum = (l.map f).sum / c := by
  induction l with
  | nil => simp
  | cons x xs ih => simp [ih, add_div]

theorem sum_map_const_sub (l : List ℕ) (fks : ℕ → ℚ) (c : ℚ) :
    (l.map (fun j => c - fks j)).sum = l.length * c - (l.map fks).sum := by
  induction l with
  | nil => simp
  | cons x xs ih =>
      simp only [List.map_cons, List.sum_cons, ih, List.length_cons]
      push_cast
      ring

theorem foldl_pair_add {α : Type} (l : List α) (f g : α → ℚ) (a b : ℚ) :
    l.foldl (fun ac x => (ac.1 + f x, ac.2 + g x)) (a, b) =
      (a + (l.map f).sum, b + (l.map g).sum) := by
  induction l generalizing a b with
  | nil => simp
  | cons x xs ih =>
      simp only [List.foldl_cons, ih, List.map_cons, List.sum_cons]
      rw [Prod.mk.injEq]
      exact ⟨by ring, by ring⟩

theorem slow_unicriterion_flows_fst (n : ℕ) (dm : List (List ℚ))
    (gc : GeneralizedCriterion) :
    (slow_unicriterion_flows n dm gc).fst =
      dm.map (fun di => (di.map gc.normalisation).sum / ((n : ℚ) - 1)) := by
  simp only [slow_unicriterion_flows, List.unzip_fst, List.map_map]
  refine List.map_congr_left (fun di _ => ?_)
  simp only [Function.comp_apply]
  rw [foldl_pair_add]
  simp

theorem slow_unicriterion_flows_snd (n : ℕ) (dm : List (List ℚ))
    (gc : GeneralizedCriterion) :
    (slow_unicriterion_flows n dm gc).snd =
      dm.map (fun di => (di.map (fun d => gc.normalisation (-d))).sum / ((n : ℚ) - 1)) := by
  simp only [slow_unicriterion_flows, List.unzip_snd, List.map_map]
  refine List.map_congr_left (fun di _ => ?_)
  simp only [Function.comp_apply]
  rw [foldl_pair_add]
  simp

/-! ## The stable sort -/

theorem insertLe_perm {α : Type} (key : α → ℚ) (x : α) (l : List α) :
    (insertLe key x l).Perm (x :: l) := by
  induction l with
  | nil => simp [insertLe]
  | cons y ys ih =>
      simp only [insertLe]
      split
      · exact (ih.cons y).trans (List.Perm.swap x y ys)
      · exact List.Perm.refl _

theorem foldl_insertLe_perm {α : Type} (key : α → ℚ) (l acc : List α) :
    (l.foldl (fun ac x => insertLe key x ac) acc).Perm (acc ++ l) := by
  induction l generalizing acc with
  | nil => simp
  | cons x xs ih =>
      simp only [List.foldl_cons]
      refine (ih (insertLe key x acc)).trans ?_
      refine (((insertLe_perm key x acc).append_right xs).trans ?_)
      exact List.perm_middle.symm

theorem sortByKey_perm {α : Type} (key : α → ℚ) (l : List α) :
    (sortByKey key l).Perm l := by
  simpa [sortByKey] using foldl_insertLe_perm key l []

theorem insertLe_pairwise {α : Type} {key : α → ℚ} {Q : α → α → Prop} {x : α} {l : List α}
    (hl : l.Pairwise (fun a b => key a < key b ∨ (key a = key b ∧ Q a b)))
    (hx : ∀ y ∈ l, Q y x) :
    (insertLe key x l).Pairwise (fun a b => key a < key b ∨ (key a = key b ∧ Q a b)) := by
  induction l with
  | nil => simp [insertLe]
  | cons y ys ih =>
      rw [List.pairwise_cons] at hl
      simp only [insertLe]
      split
      · rename_i hyx
        rw [List.pairwise_cons]
        refine ⟨fun z hz => ?_, ih hl.2 (fun z hz => hx z (List.mem_cons_of_mem y hz))⟩
        rcases List.mem_cons.1 (((insertLe_perm key x ys).mem_iff).1 hz) with hzx | hzys
        · subst hzx
          rcases lt_or_eq_of_le hyx with h | h
          · exact Or.inl h
          · exact Or.inr ⟨h, hx y (List.mem_cons_self y ys)⟩
        · exact hl.1 z hzys
      · rename_i hyx
        have hxy : key x < key y := not_le.1 hyx
        rw [List.pairwise_cons]
        refine ⟨fun z hz => ?_, List.pairwise_cons.2 hl⟩
        rcases List.mem_cons.1 hz with hzy | hzys
        · subst hzy; exact Or.inl hxy
        · refine Or.inl (lt_of_lt_of_le hxy ?_)
          rcases hl.1 z hzys with h | h
          · exact le_of_lt h
          · exact le_of_eq h.1

theorem sortByKey_pairwise_strong {α : Type} {key : α → ℚ} {Q : α → α → Prop} {l : List α}
    (hl : l.Pairwise Q) :
    (sortByKey key l).Pairwise (fun a b => key a < key b ∨ (key a = key b ∧ Q a b)) := by
  suffices h : ∀ (acc : List α),
      acc.Pairwise (fun a b => key a < key b ∨ (key a = key b ∧ Q a b)) →
      (∀ y ∈ acc, ∀ x ∈ l, Q y x) →
      l.Pairwise Q →
      (l.foldl (fun ac x => insertLe key x ac) acc).Pairwise
        (fun a b => key a < key b ∨ (key a = key b ∧ Q a b)) by
    exact h [] (by simp) (by simp) hl
  clear hl
  induction l with
  | nil => intro acc hacc _ _; simpa using hacc
  | cons x xs ih =>
      intro acc hacc hcross hl
      rw [List.pairwise_cons] at hl
      simp only [List.foldl_cons]
      refine ih (insertLe key x acc) ?_ ?_ hl.2
      · exact insertLe_pairwise hacc (fun y hy => hcross y hy x (List.mem_cons_self x xs))
      · intro y hy z hz
        rcases List.mem_cons.1 (((insertLe_perm key x acc).mem_iff).1 hy) with hyx | hyacc
        · subst hyx; exact hl.1 z hz
        · exact hcross y hyacc z (List.mem_cons_of_mem x hz)

theorem sortByKey_pairwise_le {α : Type} (key : α → ℚ) (l : List α) :
    (sortByKey key l).Pairwise (fun a b => key a ≤ key b) := by
  have htriv : l.Pairwise (fun _ _ => True) := by
    induction l with
    | nil => simp
    | cons x xs ih => simp [List.pairwise_cons, ih]
  refine (sortByKey_pairwise_strong (Q := fun _ _ => True) htriv).imp ?_
  rintro a b (h | h)
  · exact le_of_lt h
  · exact le_of_eq h.1

theorem argsortAsc_perm (fks : ℕ → ℚ) (n : ℕ) : (argsortAsc fks n).Perm (List.range n) :=
  sortByKey_perm fks (List.range n)

theorem argsortAsc_sorted (fks : ℕ → ℚ) (n : ℕ) :
    (argsortAsc fks n).Pairwise (fun i j => fks i ≤ fks j) :=
  sortByKey_pairwise_le fks (List.range n)

end Promethee

namespace Promethee

/-! ## Enumeration lemmas -/

theorem enumFromQ_length {α : Type} (i : ℕ) (l : List α) :
    (enumFromQ i l).length = l.length := by
  induction l generalizing i with
  | nil => rfl
  | cons x xs ih => simp [enumFromQ, ih]

theorem mem_enumFromQ {α : Type} {i : ℕ} {l : List α} {x : ℕ × α}
    (h : x ∈ enumFromQ i l) : i ≤ x.1 ∧ l.get? (x.1 - i) = some x.2 := by
  induction l generalizing i with
  | nil => simp [enumFromQ] at h
  | cons y ys ih =>
      rcases List.mem_cons.1 h with hx | hx
      · subst hx; simp
      · rcases ih hx with ⟨h1, h2⟩
        refine ⟨le_trans (Nat.le_succ i) h1, ?_⟩
        have hx1 : x.1 - i = (x.1 - (i + 1)) + 1 := by omega
        rw [hx1]
        simpa using h2

theorem enumFromQ_pairwise_fst {α : Type} (i : ℕ) (l : List α) :
    (enumFromQ i l).Pairwise (fun a b => a.1 < b.1) := by
  induction l generalizing i with
  | nil => simp [enumFromQ]
  | cons x xs ih =>
      simp only [enumFromQ, List.pairwise_cons]
      exact ⟨fun b hb => lt_of_lt_of_le (Nat.lt_succ_self i) (mem_enumFromQ hb).1, ih (i + 1)⟩

theorem enumFromQ_map_fst {α : Type} (i : ℕ) (l : List α) :
    (enumFromQ i l).map Prod.fst = List.range' i l.length := by
  induction l generalizing i with
  | nil => rfl
  | cons x xs ih => simp [enumFromQ, ih, List.range'_succ]

/-! ## `ranked_alts` structure -/

theorem ranked_alts_perm_aux (r : Promethee2Result) :
    r.ranked_alts.Perm (List.range r.net_flows.length) := by
  unfold Promethee2Result.ranked_alts
  refine (List.reverse_perm _).trans ?_
  have h1 := (sortByKey_perm (fun x : ℕ × ℚ => x.2) (enumFromQ 0 r.net_flows)).map Prod.fst
  rw [enumFromQ_map_fst, ← List.range_eq_range'] at h1
  simpa [enumFromQ_length] using h1

theorem ranked_alts_netflow_getD {r : Promethee2Result} {x : ℕ × ℚ}
    (hx : x ∈ sortByKey (fun y : ℕ × ℚ => y.2) (enumFromQ 0 r.net_flows)) :
    r.net_flows.getD x.1 0 = x.2 := by
  have hmem : x ∈ enumFromQ 0 r.net_flows :=
    (sortByKey_perm (fun y : ℕ × ℚ => y.2) (enumFromQ 0 r.net_flows)).subset hx
  have h2 := (mem_enumFromQ hmem).2
  simp only [Nat.sub_zero] at h2
  rw [List.get?_eq_getElem?] at h2
  simp [List.getD_eq_getElem?_getD, h2]

theorem ranked_alts_sorted_desc (r : Promethee2Result) :
    r.ranked_alts.Pairwise (fun i j => r.net_flows.getD j 0 ≤ r.net_flows.getD i 0) := by
  unfold Promethee2Result.ranked_alts
  rw [List.pairwise_reverse, List.pairwise_map]
  refine List.Pairwise.imp_of_mem ?_
    (sortByKey_pairwise_le (fun y : ℕ × ℚ => y.2) (enumFromQ 0 r.net_flows))
  intro a b ha hb hab
  rw [ranked_alts_netflow_getD ha, ranked_alts_netflow_getD hb]
  exact hab

end Promethee

namespace Promethee

theorem ranked_alts_ties_desc (r : Promethee2Result) {u v : ℕ}
    (huv : u < v) (hv : v < r.ranked_alts.length)
    (heq : r.net_flows.getD (r.ranked_alts.getD u 0) 0
         = r.net_flows.getD (r.ranked_alts.getD v 0) 0) :
    r.ranked_alts.getD v 0 < r.ranked_alts.getD u 0 := by
  classical
  set L := sortByKey (fun y : ℕ × ℚ => y.2) (enumFromQ 0 r.net_flows) with hLdef
  have hlen : r.ranked_alts.length = L.length := by
    simp [Promethee2Result.ranked_alts, hLdef]
  have hvL : v < L.length := hlen ▸ hv
  have huL : u < L.length := lt_trans huv hvL
  have hju : L.length - 1 - u < L.length := by omega
  have hjv : L.length - 1 - v < L.length := by omega
  have hlt : L.length - 1 - v < L.length - 1 - u := by omega
  set eu := L.get ⟨L.length - 1 - u, hju⟩ with heu
  set ev := L.get ⟨L.length - 1 - v, hjv⟩ with hev
  have hkey : ∀ (w : ℕ) (hw : w < L.length),
      r.ranked_alts.getD w 0 = (L.get ⟨L.length - 1 - w, by omega⟩).1 := by
    intro w hw
    have hrw : r.ranked_alts = (L.map Prod.fst).reverse := by
      simp [Promethee2Result.ranked_alts, hLdef]
    have hmaplen : (L.map Prod.fst).length = L.length := by simp
    have h1 : r.ranked_alts.get? w = (L.map Prod.fst).get? (L.length - 1 - w) := by
      rw [hrw, List.get?_reverse]
      · rw [hmaplen]
      · rw [hmaplen]; exact hw
    have h2 : (L.map Prod.fst).get? (L.length - 1 - w) =
        some (L.get ⟨L.length - 1 - w, by omega⟩).1 := by
      rw [List.get?_map, List.get?_eq_get (by omega : L.length - 1 - w < L.length)]
      rfl
    rw [List.getD_eq_getElem?_getD, ← List.get?_eq_getElem?, h1, h2]
    rfl
  have hgu : r.ranked_alts.getD u 0 = eu.1 := hkey u huL
  have hgv : r.ranked_alts.getD v 0 = ev.1 := hkey v hvL
  have hflowu : r.net_flows.getD eu.1 0 = eu.2 :=
    ranked_alts_netflow_getD (hLdef ▸ L.get_mem _ _)
  have hflowv : r.net_flows.getD ev.1 0 = ev.2 :=
    ranked_alts_netflow_getD (hLdef ▸ L.get_mem _ _)
  have heq2 : eu.2 = ev.2 := by
    rw [← hflowu, ← hflowv, ← hgu, ← hgv]
    exact heq
  have hstab : L.Pairwise
      (fun a b : ℕ × ℚ => a.2 < b.2 ∨ (a.2 = b.2 ∧ a.1 < b.1)) :=
    sortByKey_pairwise_strong (enumFromQ_pairwise_fst 0 r.net_flows)
  have hR := (List.pairwise_iff_get.1 hstab) ⟨L.length - 1 - v, hjv⟩
    ⟨L.length - 1 - u, hju⟩ hlt
  rw [hgu, hgv]
  rcases hR with h | h
  · exact absurd heq2.symm (ne_of_lt h)
  · exact h.2

end Promethee

namespace Promethee

/-! ## Spec lemmas for the inner loops of the fast positive flow -/

theorem normalize_linear_eq_one {qt p d : ℚ} (hqp : qt ≤ p) (h : p ≤ d) :
    normalize_linear qt p d = 1 := by
  unfold normalize_linear
  rw [if_neg (by linarith), if_neg (by linarith)]

theorem normalize_linear_eq_zero {qt p d : ℚ} (h : d < qt) :
    normalize_linear qt p d = 0 := by
  unfold normalize_linear
  rw [if_pos h]

theorem normalize_linear_eq_ramp {qt p d : ℚ} (hqp : qt < p) (h1 : qt ≤ d) (h2 : d ≤ p) :
    normalize_linear qt p d = (d - qt) / (p - qt) := by
  unfold normalize_linear
  rw [if_neg (by linarith)]
  rcases lt_or_eq_of_le h2 with h | h
  · rw [if_pos h]
  · subst h
    rw [if_neg (lt_irrefl d), div_self (by linarith : d - qt ≠ 0)]

theorem sum_map_one (l : List ℕ) : (l.map (fun _ => (1 : ℚ))).sum = l.length := by
  induction l with
  | nil => simp
  | cons x xs ih => simp [ih]; ring

theorem sorted_head_lt {fks : ℕ → ℚ} {c : ℚ} {l : List ℕ}
    (hs : l.Pairwise (fun i j => fks i ≤ fks j))
    (hh : ∀ x, l.head? = some x → c < fks x) :
    ∀ j ∈ l, c < fks j := by
  cases l with
  | nil => simp
  | cons x xs =>
      intro j hj
      have hx : c < fks x := hh x rfl
      rcases List.mem_cons.1 hj with h | h
      · subst h; exact hx
      · exact lt_of_lt_of_le hx ((List.pairwise_cons.1 hs).1 j h)

theorem getD_set_eq (l : List ℚ) (i : ℕ) (v : ℚ) (h : i < l.length) :
    (l.set i v).getD i 0 = v := by
  induction l generalizing i with
  | nil => simp at h
  | cons x xs ih =>
      cases i with
      | zero => simp
      | succ m => simpa using ih m (by simpa using h)

theorem getD_set_ne (l : List ℚ) (i j : ℕ) (v : ℚ) (h : i ≠ j) :
    (l.set i v).getD j 0 = l.getD j 0 := by
  induction l generalizing i j with
  | nil => simp
  | cons x xs ih =>
      cases i with
      | zero => cases j with
          | zero => exact absurd rfl h
          | succ m => simp
      | succ m => cases j with
          | zero => simp
          | succ m' => simpa using ih m m' (fun hc => h (by rw [hc]))

theorem fast_pos_evict_spec (fks : ℕ → ℚ) (low : ℚ) :
    ∀ (w : List ℕ) (s : ℚ) (c : ℕ),
      ∃ ev : List ℕ,
        w = ev ++ (fast_pos_evict fks low w s c).1 ∧
        (∀ j ∈ ev, fks j ≤ low) ∧
        (∀ x, (fast_pos_evict fks low w s c).1.head? = some x → low < fks x) ∧
        (fast_pos_evict fks low w s c).2.1 = s - (ev.map fks).sum ∧
        (fast_pos_evict fks low w s c).2.2 = c + ev.length := by
  intro w
  induction w with
  | nil =>
      intro s c
      exact ⟨[], by simp [fast_pos_evict]⟩
  | cons x w ih =>
      intro s c
      by_cases hx : fks x ≤ low
      · obtain ⟨ev, h1, h2, h3, h4, h5⟩ := ih (s - fks x) (c + 1)
        refine ⟨x :: ev, ?_, ?_, ?_, ?_, ?_⟩
        · simp only [fast_pos_evict, if_pos hx]
          simpa using h1
        · intro j hj
          rcases List.mem_cons.1 hj with h | h
          · subst h; exact hx
          · exact h2 j h
        · simpa only [fast_pos_evict, if_pos hx] using h3
        · simp only [fast_pos_evict, if_pos hx, h4, List.map_cons, List.sum_cons]
          ring
        · simp only [fast_pos_evict, if_pos hx, h5, List.length_cons]
          omega
      · refine ⟨[], ?_, by simp, ?_, ?_, ?_⟩
        · simp [fast_pos_evict, if_neg hx]
        · simp only [fast_pos_evict, if_neg hx]
          intro y hy
          rw [List.head?_cons, Option.some_inj] at hy
          subst hy
          exact not_le.1 hx
        · simp [fast_pos_evict, if_neg hx]
        · simp [fast_pos_evict, if_neg hx]

theorem fast_pos_admit_spec (fks : ℕ → ℚ) (low up : ℚ) :
    ∀ (r w : List ℕ) (s : ℚ) (c : ℕ),
      (∀ j ∈ w, low ≤ fks j) →
      (∀ j ∈ w, ∀ x ∈ r, fks j ≤ fks x) →
      r.Pairwise (fun i j => fks i ≤ fks j) →
      ∃ sk pu : List ℕ,
        r = sk ++ pu ++ ( fast_pos_admit fks low up r w s c).1 ∧
        (sk = [] ∨ w = []) ∧
        (∀ x ∈ sk, fks x < low) ∧
        (∀ x ∈ pu, low ≤ fks x ∧ fks x ≤ up) ∧
        (∀ x, ( fast_pos_admit fks low up r w s c).1.head? = some x → up < fks x) ∧
        ( fast_pos_admit fks low up r w s c).2.1 = w ++ pu ∧
        ( fast_pos_admit fks low up r w s c).2.2.1 = s + (pu.map fks).sum ∧
        ( fast_pos_admit fks low up r w s c).2.2.2 = c + sk.length := by
  intro r
  induction r with
  | nil =>
      intro w s c _ _ _
      exact ⟨[], [], by simp [ fast_pos_admit]⟩
  | cons x r ih =>
      intro w s c hw hcross hpw
      rw [List.pairwise_cons] at hpw
      by_cases hxu : fks x ≤ up
      · by_cases hxl : low ≤ fks x
        · obtain ⟨sk, pu, h1, h2, h3, h4, h5, h6, h7, h8⟩ :=
            ih (w ++ [x]) (s + fks x) c
              (by
                intro j hj
                rcases List.mem_append.1 hj with h | h
                · exact hw j h
                · rw [List.mem_singleton.1 h]; exact hxl)
              (by
                intro j hj y hy
                rcases List.mem_append.1 hj with h | h
                · exact hcross j h y (List.mem_cons_of_mem x hy)
                · rw [List.mem_singleton.1 h]; exact hpw.1 y hy)
              hpw.2
          have hsk : sk = [] := by
            rcases h2 with h | h
            · exact h
            · exact absurd h (by simp)
          subst hsk
          refine ⟨[], x :: pu, ?_, Or.inl rfl, by simp, ?_, ?_, ?_, ?_, ?_⟩
          · simp only [ fast_pos_admit, if_pos hxu, if_pos hxl]
            simpa using h1
          · intro y hy
            rcases List.mem_cons.1 hy with h | h
            · subst h; exact ⟨hxl, hxu⟩
            · exact h4 y h
          · simpa only [ fast_pos_admit, if_pos hxu, if_pos hxl] using h5
          · simp only [ fast_pos_admit, if_pos hxu, if_pos hxl, h6]
            simp
          · simp only [ fast_pos_admit, if_pos hxu, if_pos hxl, h7, List.map_cons, List.sum_cons]
            ring
          · simpa only [ fast_pos_admit, if_pos hxu, if_pos hxl] using h8
        · have hwnil : w = [] := by
            by_contra hne
            obtain ⟨j, hj⟩ := List.exists_mem_of_ne_nil w hne
            exact hxl (le_trans (hw j hj) (hcross j hj x (List.mem_cons_self x r)))
          subst hwnil
          obtain ⟨sk, pu, h1, _h2, h3, h4, h5, h6, h7, h8⟩ :=
            ih [] s (c + 1) (by simp) (by simp) hpw.2
          refine ⟨x :: sk, pu, ?_, Or.inr rfl, ?_, h4, ?_, ?_, ?_, ?_⟩
          · simp only [ fast_pos_admit, if_pos hxu, if_neg hxl]
            simpa using h1
          · intro y hy
            rcases List.mem_cons.1 hy with h | h
            · subst h; exact not_le.1 hxl
            · exact h3 y h
          · simpa only [ fast_pos_admit, if_pos hxu, if_neg hxl] using h5
          · simpa only [ fast_pos_admit, if_pos hxu, if_neg hxl] using h6
          · simpa only [ fast_pos_admit, if_pos hxu, if_neg hxl] using h7
          · simp only [ fast_pos_admit, if_pos hxu, if_neg hxl, h8, List.length_cons]
            omega
      · refine ⟨[], [], ?_, Or.inl rfl, by simp, by simp, ?_, ?_, ?_, ?_⟩
        · simp [ fast_pos_admit, if_neg hxu]
        · simp only [ fast_pos_admit, if_neg hxu]
          intro y hy
          rw [List.head?_cons, Option.some_inj] at hy
          subst hy
          exact not_le.1 hxu
        · simp [ fast_pos_admit, if_neg hxu]
        · simp [ fast_pos_admit, if_neg hxu]
        · simp [ fast_pos_admit, if_neg hxu]

end Promethee

namespace Promethee

theorem sum_map_zero (l : List ℕ) : (l.map (fun _ => (0 : ℚ))).sum = 0 := by
  induction l with
  | nil => simp
  | cons x xs ih => simp [ih]

/-- Invariant-carrying correctness of the main loop of the fast positive flow:
processing the remaining anchors fills each anchor's slot with the quadratic
reference value `(Σ_j normalize_linear qt p (fks i - fks j)) / (n-1)` (over the
whole argsorted index list `A`), and leaves other slots untouched. -/
theorem fast_pos_loop_spec (n : ℕ) (fks : ℕ → ℚ) (qt p : ℚ) (A : List ℕ)
    (hperm : A.Perm (List.range n))
    (hsorted : A.Pairwise (fun i j => fks i ≤ fks j))
    (hqp : qt < p ∨ (qt = p ∧ ∀ i ∈ A, ∀ j ∈ A, fks i - fks j ≠ p)) :
    ∀ (anchors : List ℕ), (∃ pre, pre ++ anchors = A) →
    ∀ (done w r : List ℕ) (s : ℚ) (card_l : ℕ) (flows : List ℚ),
      A = done ++ w ++ r →
      card_l = done.length →
      s = (w.map fks).sum →
      (∀ j ∈ done, ∀ a ∈ anchors, fks j ≤ fks a - p) →
      (∀ j ∈ w, ∀ a ∈ anchors, fks j ≤ fks a - qt) →
      flows.length = n →
      (fast_pos_loop n fks qt p anchors w r card_l s flows).length = n ∧
      ∀ i : ℕ,
        (fast_pos_loop n fks qt p anchors w r card_l s flows).getD i 0 =
          if i ∈ anchors then
            1 / ((n : ℚ) - 1) * (A.map (fun j => normalize_linear qt p (fks i - fks j))).sum
          else flows.getD i 0 := by
  have hqple : qt ≤ p := by
    rcases hqp with h | h
    · exact le_of_lt h
    · exact le_of_eq h.1
  intro anchors
  induction anchors with
  | nil =>
      intro _ done w r s card_l flows _ _ _ _ _ hflen
      exact ⟨by simpa [fast_pos_loop] using hflen, fun i => by simp [fast_pos_loop]⟩
  | cons a rest ih =>
      rintro ⟨pre, hpre⟩ done w r s card_l flows hsplit hcard hs hI1 hI2 hflen
      -- the anchors form a sorted, nodup suffix of `A`
      have hanchsub : (a :: rest).Sublist A := by
        rw [← hpre]; exact List.sublist_append_right pre (a :: rest)
      have hanchsorted := List.pairwise_cons.1 (hsorted.sublist hanchsub)
      have haA : a ∈ A := hanchsub.subset (List.mem_cons_self a rest)
      have hAnodup : A.Nodup := (hperm.nodup_iff).2 (List.nodup_range n)
      have hanotrest : a ∉ rest := (List.nodup_cons.1 (hAnodup.sublist hanchsub)).1
      have haltn : a < n := List.mem_range.1 (hperm.subset haA)
      -- split the sortedness of A along done ++ w ++ r
      have hAsorted : (done ++ (w ++ r)).Pairwise (fun i j => fks i ≤ fks j) := by
        rw [← List.append_assoc, ← hsplit]; exact hsorted
      have hpieces := List.pairwise_append.1 hAsorted
      have hwr := List.pairwise_append.1 hpieces.2.1
      -- eviction
      obtain ⟨evl, hwsplit, hev_le, hw1head, hs1, hc1⟩ :=
        fast_pos_evict_spec fks (fks a - p) w s card_l
      have hw1sorted : (fast_pos_evict fks (fks a - p) w s card_l).1.Pairwise
          (fun i j => fks i ≤ fks j) := by
        have h := hwr.1
        rw [hwsplit, List.pairwise_append] at h
        exact h.2.1
      have hw1ge : ∀ j ∈ (fast_pos_evict fks (fks a - p) w s card_l).1,
          fks a - p ≤ fks j :=
        fun j hj => le_of_lt (sorted_head_lt hw1sorted hw1head j hj)
      have hw1w : ∀ j ∈ (fast_pos_evict fks (fks a - p) w s card_l).1, j ∈ w := by
        intro j hj
        rw [hwsplit]
        exact List.mem_append_right evl hj
      -- admission
      obtain ⟨sk, pu, hrsplit, hskw, hsk_lt, hpu_range, hr2head, hw2eq, hs2, hc2⟩ :=
        fast_pos_admit_spec fks (fks a - p) (fks a - qt) r
          (fast_pos_evict fks (fks a - p) w s card_l).1
          (fast_pos_evict fks (fks a - p) w s card_l).2.1
          (fast_pos_evict fks (fks a - p) w s card_l).2.2
          hw1ge (fun j hj x hx => hwr.2.2 j (hw1w j hj) x hx) hwr.2.1
      set E := fast_pos_evict fks (fks a - p) w s card_l with hE
      set AD := fast_pos_admit fks (fks a - p) (fks a - qt) r E.1 E.2.1 E.2.2 with hAD
      -- the new three-way split of A
      have hA2 : A = (done ++ evl ++ sk) ++ AD.2.1 ++ AD.1 := by
        rw [hsplit, hwsplit, hrsplit, hw2eq]
        rcases hskw with h | h
        · rw [h]; simp
        · rw [h]; simp
      -- region facts at the current anchor
      have hmemdone2 : ∀ j ∈ done ++ evl ++ sk, fks j ≤ fks a - p := by
        intro j hj
        rcases List.mem_append.1 hj with hj1 | hj1
        · rcases List.mem_append.1 hj1 with hj2 | hj2
          · exact hI1 j hj2 a (List.mem_cons_self a rest)
          · exact hev_le j hj2
        · exact le_of_lt (hsk_lt j hj1)
      have hmemw2 : ∀ j ∈ AD.2.1, fks a - p ≤ fks j ∧ fks j ≤ fks a - qt := by
        intro j hj
        rw [hw2eq] at hj
        rcases List.mem_append.1 hj with hj1 | hj1
        · exact ⟨hw1ge j hj1, hI2 j (hw1w j hj1) a (List.mem_cons_self a rest)⟩
        · exact hpu_range j hj1
      have hr2sorted : AD.1.Pairwise (fun i j => fks i ≤ fks j) := by
        refine hwr.2.1.sublist ?_
        rw [hrsplit]
        exact List.sublist_append_right (sk ++ pu) AD.1
      have hr2gt : ∀ j ∈ AD.1, fks a - qt < fks j := sorted_head_lt hr2sorted hr2head
      -- bookkeeping: count and sum
      have hc2' : (AD.2.2.2 : ℚ) = ((done ++ evl ++ sk).length : ℚ) := by
        rw [hc2, hc1, hcard]
        push_cast [List.length_append]
        ring
      have hs2' : AD.2.2.1 = (AD.2.1.map fks).sum := by
        rw [hs2, hs1, hs, hwsplit, hw2eq]
        simp only [List.map_append, List.sum_append]
        ring
      -- the per-anchor sum identity
      have hD2 : ((done ++ evl ++ sk).map
          (fun j => normalize_linear qt p (fks a - fks j))).sum
          = ((done ++ evl ++ sk).length : ℚ) := by
        rw [List.map_congr_left
          (fun j hj => normalize_linear_eq_one hqple (by linarith [hmemdone2 j hj]))]
        exact sum_map_one _
      have hR2 : (AD.1.map (fun j => normalize_linear qt p (fks a - fks j))).sum = 0 := by
        rw [List.map_congr_left
          (fun j hj => normalize_linear_eq_zero (by linarith [hr2gt j hj]))]
        exact sum_map_zero _
      have hsum : (A.map (fun j => normalize_linear qt p (fks a - fks j))).sum
          = (AD.2.2.2 : ℚ) + (AD.2.1.length : ℚ) *
              (if p ≠ qt then (fks a - qt) / (p - qt) else 0) +
              (if p ≠ qt then -AD.2.2.1 / (p - qt) else 0) := by
        rw [hA2, List.map_append, List.map_append, List.sum_append, List.sum_append,
          hD2, hR2]
        rcases hqp with hlt | ⟨hqeq, hexc⟩
        · have hne : p ≠ qt := ne_of_gt hlt
          have hW2 : (AD.2.1.map (fun j => normalize_linear qt p (fks a - fks j))).sum
              = ((AD.2.1.length : ℚ) * (fks a - qt) - (AD.2.1.map fks).sum) / (p - qt) := by
            rw [List.map_congr_left (fun j hj => ?_), sum_map_div, sum_map_const_sub]
            rw [normalize_linear_eq_ramp hlt (by linarith [(hmemw2 j hj).2])
              (by linarith [(hmemw2 j hj).1])]
            congr 1
            ring
          rw [hW2, if_pos hne, if_pos hne, hc2', hs2']
          have hpq : p - qt ≠ 0 := sub_ne_zero.2 hne
          field_simp
          ring
        · have hW2nil : AD.2.1 = [] := by
            rw [List.eq_nil_iff_forall_not_mem]
            intro j hj
            have hj1 := hmemw2 j hj
            have hjA : j ∈ A := by
              rw [hA2]
              exact List.mem_append_left AD.1
                (List.mem_append_right (done ++ evl ++ sk) hj)
            refine hexc a haA j hjA ?_
            rw [hqeq] at hj1
            linarith [hj1.1, hj1.2]
          have hne : ¬ p ≠ qt := by simp [hqeq]
          rw [if_neg hne, if_neg hne, hW2nil, hc2']
          simp
      -- one unfolding step of the loop
      have hstep : fast_pos_loop n fks qt p (a :: rest) w r card_l s flows
          = fast_pos_loop n fks qt p rest AD.2.1 AD.1 AD.2.2.2 AD.2.2.1
              (flows.set a (1 / ((n : ℚ) - 1) *
                ((AD.2.2.2 : ℚ) + (AD.2.1.length : ℚ) *
                  (if p ≠ qt then (fks a - qt) / (p - qt) else 0) +
                  (if p ≠ qt then -AD.2.2.1 / (p - qt) else 0)))) := rfl
      -- invariants for the tail
      have hIH := ih ⟨pre ++ [a], by simpa using hpre⟩ (done ++ evl ++ sk) AD.2.1 AD.1
        AD.2.2.1 AD.2.2.2 (flows.set a (1 / ((n : ℚ) - 1) *
            ((AD.2.2.2 : ℚ) + (AD.2.1.length : ℚ) *
              (if p ≠ qt then (fks a - qt) / (p - qt) else 0) +
              (if p ≠ qt then -AD.2.2.1 / (p - qt) else 0))))
        hA2
        (by rw [hc2, hc1, hcard]; simp [List.length_append]; omega)
        hs2'
        (by
          intro j hj a' ha'
          have h1 := hmemdone2 j hj
          have h2 := hanchsorted.1 a' ha'
          linarith)
        (by
          intro j hj a' ha'
          have h1 := (hmemw2 j hj).2
          have h2 := hanchsorted.1 a' ha'
          linarith)
        (by rw [List.length_set]; exact hflen)
      rw [hstep]
      refine ⟨hIH.1, ?_⟩
      intro i
      rw [hIH.2 i]
      by_cases hirest : i ∈ rest
      · rw [if_pos hirest, if_pos (List.mem_cons_of_mem a hirest)]
      · by_cases hia : i = a
        · subst hia
          rw [if_neg hirest, if_pos (List.mem_cons_self i rest)]
          rw [getD_set_eq flows i _ (by rw [hflen]; exact haltn), hsum]
        · rw [if_neg hirest, if_neg (show ¬ i ∈ a :: rest by
            intro hc
            rcases List.mem_cons.1 hc with h | h
            · exact hia h
            · exact hirest h)]
          exact getD_set_ne flows a i _ (fun hc => hia hc.symm)

end Promethee

namespace Promethee

theorem map_range_getD (col : List ℚ) :
    (List.range col.length).map (fun i => col.getD i 0) = col := by
  apply List.ext_getElem
  · simp
  · intro i h1 h2
    simp [List.getD_eq_getElem?_getD, List.getElem?_eq_getElem h2]

theorem sum_map_over_col (col : List ℚ) (F : ℚ → ℚ) :
    ((List.range col.length).map (fun j => F (col.getD j 0))).sum = (col.map F).sum := by
  conv_rhs => rw [← map_range_getD col]
  rw [List.map_map]
  rfl

/-- The fast positive flow equals the quadratic reference values, entry by
entry, for any ascending-sorted permutation `args` of the column indices,
provided the ramp is non-degenerate (`qt < p`) or no ordered pair of
performances differs by exactly `p`. -/
theorem fast_pos_eq_slow (col : List ℚ) (qt p : ℚ) (args : List ℕ)
    (hperm : args.Perm (List.range col.length))
    (hsorted : args.Pairwise (fun i j => col.getD i 0 ≤ col.getD j 0))
    (hqp : qt < p ∨ (qt = p ∧
      ∀ i < col.length, ∀ j < col.length, col.getD i 0 - col.getD j 0 ≠ p)) :
    fast_pos_loop col.length (fun i => col.getD i 0) qt p args [] args 0 0
        (List.replicate col.length 0)
      = (slow_unicriterion_flows col.length (dist_mat_of col)
          (GeneralizedCriterion.Linear qt p)).fst := by
  have hmemn : ∀ i ∈ args, i < col.length := fun i hi => List.mem_range.1 (hperm.subset hi)
  have hqp' : qt < p ∨ (qt = p ∧
      ∀ i ∈ args, ∀ j ∈ args, (fun i => col.getD i 0) i - (fun i => col.getD i 0) j ≠ p) := by
    rcases hqp with h | ⟨h1, h2⟩
    · exact Or.inl h
    · exact Or.inr ⟨h1, fun i hi j hj => h2 i (hmemn i hi) j (hmemn j hj)⟩
  have hspec := fast_pos_loop_spec col.length (fun i => col.getD i 0) qt p args
    hperm hsorted hqp' args ⟨[], rfl⟩ [] [] args 0 0
    (List.replicate col.length 0) (by simp) rfl (by simp) (by simp) (by simp)
    (List.length_replicate col.length 0)
  rw [slow_unicriterion_flows_fst]
  apply List.ext_getElem
  · rw [hspec.1]
    simp [dist_mat_of]
  · intro i h1 h2
    have hiln : i < col.length := by
      rw [hspec.1] at h1
      exact h1
    have hin : i ∈ args := (hperm.mem_iff).2 (List.mem_range.2 hiln)
    have hval := hspec.2 i
    rw [if_pos hin] at hval
    rw [← List.getD_eq_getElem _ 0 h1, hval]
    have hsum_eq : (args.map
          (fun j => normalize_linear qt p (col.getD i 0 - col.getD j 0))).sum
        = (col.map (fun cj => normalize_linear qt p (col.getD i 0 - cj))).sum := by
      have hp := (hperm.map (fun j => normalize_linear qt p (col.getD i 0 - col.getD j 0)))
      rw [hp.sum_eq]
      exact sum_map_over_col col (fun cj => normalize_linear qt p (col.getD i 0 - cj))
    rw [hsum_eq]
    have hrhs : (List.map
        (fun di => (List.map (GeneralizedCriterion.Linear qt p).normalisation di).sum /
          ((col.length : ℚ) - 1)) (dist_mat_of col))[i]
        = (col.map (fun cj => normalize_linear qt p (col[i] - cj))).sum /
            ((col.length : ℚ) - 1) := by
      rw [List.getElem_map]
      unfold dist_mat_of
      rw [List.getElem_map, List.map_map]
      rfl
    rw [hrhs, ← List.getD_eq_getElem col 0 hiln]
    rw [one_div_mul_eq_div]

/-! ## The negative flow reduces to the positive flow on the negated column -/

theorem fast_neg_evict_eq (fks : ℕ → ℚ) (up : ℚ) :
    ∀ (w : List ℕ) (s : ℚ) (c : ℕ),
      fast_neg_evict fks up w s c =
        ((fast_pos_evict (fun i => -fks i) (-up) w (-s) c).1,
         -(fast_pos_evict (fun i => -fks i) (-up) w (-s) c).2.1,
         (fast_pos_evict (fun i => -fks i) (-up) w (-s) c).2.2) := by
  intro w
  induction w with
  | nil => intro s c; simp [fast_neg_evict, fast_pos_evict]
  | cons x w ih =>
      intro s c
      by_cases h : up ≤ fks x
      · have h' : (fun i => -fks i) x ≤ -up := by simpa using neg_le_neg h
        rw [fast_neg_evict, if_pos h, fast_pos_evict, if_pos h']
        have harith : -s - (fun i => -fks i) x = -(s - fks x) := by simp; ring
        rw [harith]
        exact ih (s - fks x) (c + 1)
      · have h' : ¬ (fun i => -fks i) x ≤ -up := by simpa using h
        rw [fast_neg_evict, if_neg h, fast_pos_evict, if_neg h']
        simp

theorem fast_neg_admit_eq (fks : ℕ → ℚ) (low up : ℚ) :
    ∀ (l w : List ℕ) (s : ℚ) (c : ℕ),
      fast_neg_admit fks low up l w s c =
        (( fast_pos_admit (fun i => -fks i) (-up) (-low) l w (-s) c).1,
         ( fast_pos_admit (fun i => -fks i) (-up) (-low) l w (-s) c).2.1,
         -( fast_pos_admit (fun i => -fks i) (-up) (-low) l w (-s) c).2.2.1,
         ( fast_pos_admit (fun i => -fks i) (-up) (-low) l w (-s) c).2.2.2) := by
  intro l
  induction l with
  | nil => intro w s c; simp [ fast_neg_admit, fast_pos_admit]
  | cons x l ih =>
      intro w s c
      by_cases h1 : low ≤ fks x
      · have h1' : (fun i => -fks i) x ≤ -low := by simpa using neg_le_neg h1
        by_cases h2 : fks x ≤ up
        · have h2' : -up ≤ (fun i => -fks i) x := by simpa using neg_le_neg h2
          rw [ fast_neg_admit, if_pos h1, if_pos h2, fast_pos_admit, if_pos h1', if_pos h2']
          have harith : -s + (fun i => -fks i) x = -(s + fks x) := by simp; ring
          rw [harith]
          exact ih (w ++ [x]) (s + fks x) c
        · have h2' : ¬ -up ≤ (fun i => -fks i) x := by simpa using h2
          rw [ fast_neg_admit, if_pos h1, if_neg h2, fast_pos_admit, if_pos h1', if_neg h2']
          exact ih w s (c + 1)
      · have h1' : ¬ (fun i => -fks i) x ≤ -low := by simpa using h1
        rw [ fast_neg_admit, if_neg h1, fast_pos_admit, if_neg h1']
        simp

theorem neg_val_eq (n : ℕ) (f qt p sp : ℚ) (c2 len : ℕ) :
    1 / ((n : ℚ) - 1) * ((c2 : ℚ) - (len : ℚ) *
        (if p ≠ qt then (f + qt) / (p - qt) else 0) +
        (if p ≠ qt then -sp / (p - qt) else 0))
      = 1 / ((n : ℚ) - 1) * ((c2 : ℚ) + (len : ℚ) *
        (if p ≠ qt then -(f + qt) / (p - qt) else 0) +
        (if p ≠ qt then -sp / (p - qt) else 0)) := by
  by_cases hpq : p ≠ qt
  · rw [if_pos hpq, if_pos hpq, if_pos hpq]
    ring
  · rw [if_neg hpq, if_neg hpq, if_neg hpq]
    ring

theorem fast_neg_loop_eq (n : ℕ) (fks : ℕ → ℚ) (qt p : ℚ) :
    ∀ (anchors l w : List ℕ) (c : ℕ) (s : ℚ) (flows : List ℚ),
      fast_neg_loop n fks qt p anchors l w c s flows =
        fast_pos_loop n (fun i => -fks i) qt p anchors w l c (-s) flows := by
  intro anchors
  induction anchors with
  | nil => intro l w c s flows; rfl
  | cons idx anchors ih =>
      intro l w c s flows
      have hE := fast_neg_evict_eq fks (fks idx + p) w s c
      have hAD := fast_neg_admit_eq fks (fks idx + qt) (fks idx + p) l
        (fast_neg_evict fks (fks idx + p) w s c).1
        (fast_neg_evict fks (fks idx + p) w s c).2.1
        (fast_neg_evict fks (fks idx + p) w s c).2.2
      rw [hE] at hAD
      dsimp only at hAD
      rw [neg_neg] at hAD
      have hstepn : fast_neg_loop n fks qt p (idx :: anchors) l w c s flows
          = fast_neg_loop n fks qt p anchors
              ( fast_neg_admit fks (fks idx + qt) (fks idx + p) l
                (fast_neg_evict fks (fks idx + p) w s c).1
                (fast_neg_evict fks (fks idx + p) w s c).2.1
                (fast_neg_evict fks (fks idx + p) w s c).2.2).1
              ( fast_neg_admit fks (fks idx + qt) (fks idx + p) l
                (fast_neg_evict fks (fks idx + p) w s c).1
                (fast_neg_evict fks (fks idx + p) w s c).2.1
                (fast_neg_evict fks (fks idx + p) w s c).2.2).2.1
              ( fast_neg_admit fks (fks idx + qt) (fks idx + p) l
                (fast_neg_evict fks (fks idx + p) w s c).1
                (fast_neg_evict fks (fks idx + p) w s c).2.1
                (fast_neg_evict fks (fks idx + p) w s c).2.2).2.2.2
              ( fast_neg_admit fks (fks idx + qt) (fks idx + p) l
                (fast_neg_evict fks (fks idx + p) w s c).1
                (fast_neg_evict fks (fks idx + p) w s c).2.1
                (fast_neg_evict fks (fks idx + p) w s c).2.2).2.2.1
              (flows.set idx (1 / ((n : ℚ) - 1) *
                ((( fast_neg_admit fks (fks idx + qt) (fks idx + p) l
                    (fast_neg_evict fks (fks idx + p) w s c).1
                    (fast_neg_evict fks (fks idx + p) w s c).2.1
                    (fast_neg_evict fks (fks idx + p) w s c).2.2).2.2.2 : ℚ) -
                  (( fast_neg_admit fks (fks idx + qt) (fks idx + p) l
                    (fast_neg_evict fks (fks idx + p) w s c).1
                    (fast_neg_evict fks (fks idx + p) w s c).2.1
                    (fast_neg_evict fks (fks idx + p) w s c).2.2).2.1.length : ℚ) *
                    (if p ≠ qt then (fks idx + qt) / (p - qt) else 0) +
                  (if p ≠ qt then ( fast_neg_admit fks (fks idx + qt) (fks idx + p) l
                    (fast_neg_evict fks (fks idx + p) w s c).1
                    (fast_neg_evict fks (fks idx + p) w s c).2.1
                    (fast_neg_evict fks (fks idx + p) w s c).2.2).2.2.1 / (p - qt) else 0)))) :=
        rfl
      have hstepp : fast_pos_loop n (fun i => -fks i) qt p (idx :: anchors) w l c (-s) flows
          = fast_pos_loop n (fun i => -fks i) qt p anchors
              ( fast_pos_admit (fun i => -fks i) (-fks idx - p) (-fks idx - qt) l
                (fast_pos_evict (fun i => -fks i) (-fks idx - p) w (-s) c).1
                (fast_pos_evict (fun i => -fks i) (-fks idx - p) w (-s) c).2.1
                (fast_pos_evict (fun i => -fks i) (-fks idx - p) w (-s) c).2.2).2.1
              ( fast_pos_admit (fun i => -fks i) (-fks idx - p) (-fks idx - qt) l
                (fast_pos_evict (fun i => -fks i) (-fks idx - p) w (-s) c).1
                (fast_pos_evict (fun i => -fks i) (-fks idx - p) w (-s) c).2.1
                (fast_pos_evict (fun i => -fks i) (-fks idx - p) w (-s) c).2.2).1
              ( fast_pos_admit (fun i => -fks i) (-fks idx - p) (-fks idx - qt) l
                (fast_pos_evict (fun i => -fks i) (-fks idx - p) w (-s) c).1
                (fast_pos_evict (fun i => -fks i) (-fks idx - p) w (-s) c).2.1
                (fast_pos_evict (fun i => -fks i) (-fks idx - p) w (-s) c).2.2).2.2.2
              ( fast_pos_admit (fun i => -fks i) (-fks idx - p) (-fks idx - qt) l
                (fast_pos_evict (fun i => -fks i) (-fks idx - p) w (-s) c).1
                (fast_pos_evict (fun i => -fks i) (-fks idx - p) w (-s) c).2.1
                (fast_pos_evict (fun i => -fks i) (-fks idx - p) w (-s) c).2.2).2.2.1
              (flows.set idx (1 / ((n : ℚ) - 1) *
                ((( fast_pos_admit (fun i => -fks i) (-fks idx - p) (-fks idx - qt) l
                    (fast_pos_evict (fun i => -fks i) (-fks idx - p) w (-s) c).1
                    (fast_pos_evict (fun i => -fks i) (-fks idx - p) w (-s) c).2.1
                    (fast_pos_evict (fun i => -fks i) (-fks idx - p) w (-s) c).2.2).2.2.2 : ℚ) +
                  (( fast_pos_admit (fun i => -fks i) (-fks idx - p) (-fks idx - qt) l
                    (fast_pos_evict (fun i => -fks i) (-fks idx - p) w (-s) c).1
                    (fast_pos_evict (fun i => -fks i) (-fks idx - p) w (-s) c).2.1
                    (fast_pos_evict (fun i => -fks i) (-fks idx - p) w (-s) c).2.2).2.1.length : ℚ) *
                    (if p ≠ qt then (-fks idx - qt) / (p - qt) else 0) +
                  (if p ≠ qt then -( fast_pos_admit (fun i => -fks i) (-fks idx - p) (-fks idx - qt) l
                    (fast_pos_evict (fun i => -fks i) (-fks idx - p) w (-s) c).1
                    (fast_pos_evict (fun i => -fks i) (-fks idx - p) w (-s) c).2.1
                    (fast_pos_evict (fun i => -fks i) (-fks idx - p) w (-s) c).2.2).2.2.1 /
                      (p - qt) else 0)))) :=
        rfl
      rw [hstepn, hstepp]
      have hl : -fks idx - p = -(fks idx + p) := by ring
      have hu : -fks idx - qt = -(fks idx + qt) := by ring
      rw [hl, hu, hE]
      dsimp only
      rw [hAD]
      dsimp only
      rw [ih]
      rw [neg_neg]
      congr 1
      congr 1
      exact neg_val_eq n (fks idx) qt p
        ( fast_pos_admit (fun i => -fks i) (-(fks idx + p)) (-(fks idx + qt)) l
          (fast_pos_evict (fun i => -fks i) (-(fks idx + p)) w (-s) c).1
          (fast_pos_evict (fun i => -fks i) (-(fks idx + p)) w (-s) c).2.1
          (fast_pos_evict (fun i => -fks i) (-(fks idx + p)) w (-s) c).2.2).2.2.1
        ( fast_pos_admit (fun i => -fks i) (-(fks idx + p)) (-(fks idx + qt)) l
          (fast_pos_evict (fun i => -fks i) (-(fks idx + p)) w (-s) c).1
          (fast_pos_evict (fun i => -fks i) (-(fks idx + p)) w (-s) c).2.1
          (fast_pos_evict (fun i => -fks i) (-(fks idx + p)) w (-s) c).2.2).2.2.2
        ( fast_pos_admit (fun i => -fks i) (-(fks idx + p)) (-(fks idx + qt)) l
          (fast_pos_evict (fun i => -fks i) (-(fks idx + p)) w (-s) c).1
          (fast_pos_evict (fun i => -fks i) (-(fks idx + p)) w (-s) c).2.1
          (fast_pos_evict (fun i => -fks i) (-(fks idx + p)) w (-s) c).2.2).2.1.length

end Promethee

namespace Promethee

theorem getD_map_neg (col : List ℚ) (i : ℕ) :
    (col.map (fun x => -x)).getD i 0 = -(col.getD i 0) := by
  rw [List.getD_eq_getElem?_getD, List.getD_eq_getElem?_getD, List.getElem?_map]
  cases h : col[i]? with
  | none => simp
  | some v => simp

/-- Negating the column swaps the two slow flow vectors (first component). -/
theorem slow_neg_col_fst (n : ℕ) (col : List ℚ) (gc : GeneralizedCriterion) :
    (slow_unicriterion_flows n (dist_mat_of (col.map (fun x => -x))) gc).fst
      = (slow_unicriterion_flows n (dist_mat_of col) gc).snd := by
  rw [slow_unicriterion_flows_fst, slow_unicriterion_flows_snd]
  unfold dist_mat_of
  simp only [List.map_map]
  refine List.map_congr_left (fun ai _ => ?_)
  simp only [Function.comp_apply, List.map_map]
  congr 1
  refine congrArg List.sum ?_
  refine List.map_congr_left (fun aj _ => ?_)
  simp only [Function.comp_apply]
  congr 1
  ring

/-- Negating the column swaps the two slow flow vectors (second component). -/
theorem slow_neg_col_snd (n : ℕ) (col : List ℚ) (gc : GeneralizedCriterion) :
    (slow_unicriterion_flows n (dist_mat_of (col.map (fun x => -x))) gc).snd
      = (slow_unicriterion_flows n (dist_mat_of col) gc).fst := by
  rw [slow_unicriterion_flows_fst, slow_unicriterion_flows_snd]
  unfold dist_mat_of
  simp only [List.map_map]
  refine List.map_congr_left (fun ai _ => ?_)
  simp only [Function.comp_apply, List.map_map]
  congr 1
  refine congrArg List.sum ?_
  refine List.map_congr_left (fun aj _ => ?_)
  simp only [Function.comp_apply]
  congr 1
  ring

/-- The fast negative flow equals the second slow flow vector, by reduction to
the fast positive flow on the negated column. -/
theorem fast_neg_eq_slow (col : List ℚ) (qt p : ℚ) (args : List ℕ)
    (hperm : args.Perm (List.range col.length))
    (hsorted : args.Pairwise (fun i j => col.getD i 0 ≤ col.getD j 0))
    (hqp : qt < p ∨ (qt = p ∧
      ∀ i < col.length, ∀ j < col.length, col.getD i 0 - col.getD j 0 ≠ p)) :
    fast_neg_loop col.length (fun i => col.getD i 0) qt p args.reverse
        args.reverse [] 0 0 (List.replicate col.length 0)
      = (slow_unicriterion_flows col.length (dist_mat_of col)
          (GeneralizedCriterion.Linear qt p)).snd := by
  rw [fast_neg_loop_eq, neg_zero]
  have hlen : (col.map (fun x => -x)).length = col.length := List.length_map col _
  have hfun : (fun i => -(fun i => col.getD i 0) i)
      = (fun i => (col.map (fun x => -x)).getD i 0) := by
    funext i
    rw [getD_map_neg]
  have hperm' : args.reverse.Perm (List.range (col.map (fun x => -x)).length) := by
    rw [hlen]
    exact (List.reverse_perm args).trans hperm
  have hsorted' : args.reverse.Pairwise
      (fun i j => (col.map (fun x => -x)).getD i 0 ≤ (col.map (fun x => -x)).getD j 0) := by
    rw [List.pairwise_reverse]
    refine hsorted.imp ?_
    intro a b hab
    rw [getD_map_neg, getD_map_neg]
    exact neg_le_neg hab
  have hqp' : qt < p ∨ (qt = p ∧
      ∀ i < (col.map (fun x => -x)).length, ∀ j < (col.map (fun x => -x)).length,
        (col.map (fun x => -x)).getD i 0 - (col.map (fun x => -x)).getD j 0 ≠ p) := by
    rcases hqp with h | ⟨h1, h2⟩
    · exact Or.inl h
    · refine Or.inr ⟨h1, ?_⟩
      intro i hi j hj
      rw [hlen] at hi hj
      rw [getD_map_neg, getD_map_neg]
      have := h2 j hj i hi
      intro hc
      exact this (by linarith)
  have key := fast_pos_eq_slow (col.map (fun x => -x)) qt p args.reverse hperm' hsorted' hqp'
  rw [hlen] at key
  rw [hfun]
  rw [key]
  exact slow_neg_col_fst col.length col (GeneralizedCriterion.Linear qt p)

end Promethee

namespace Promethee

theorem mapMOpt_length {α β : Type} {f : α → Option β} :
    ∀ {l : List α} {res : List β}, mapMOpt f l = some res → res.length = l.length := by
  intro l
  induction l with
  | nil => intro res h; simp [mapMOpt] at h; simp [← h]
  | cons x xs ih =>
      intro res h
      simp only [mapMOpt] at h
      cases hx : f x with
      | none => rw [hx] at h; simp at h
      | some y =>
          rw [hx] at h
          cases hxs : mapMOpt f xs with
          | none => rw [hxs] at h; simp at h
          | some ys =>
              rw [hxs] at h
              simp only [Option.some_inj] at h
              rw [← h]
              simp [ih hxs]

theorem mapMOpt_get {α β : Type} {f : α → Option β} :
    ∀ {l : List α} {res : List β}, mapMOpt f l = some res →
      ∀ i (h : i < l.length), ∃ y, res.get? i = some y ∧ f (l.get ⟨i, h⟩) = some y := by
  intro l
  induction l with
  | nil => intro res _ i h; simp at h
  | cons x xs ih =>
      intro res hres i hi
      simp only [mapMOpt] at hres
      cases hx : f x with
      | none => rw [hx] at hres; simp at hres
      | some y =>
          rw [hx] at hres
          cases hxs : mapMOpt f xs with
          | none => rw [hxs] at hres; simp at hres
          | some ys =>
              rw [hxs] at hres
              simp only [Option.some_inj] at hres
              cases i with
              | zero => exact ⟨y, by rw [← hres]; rfl, hx⟩
              | succ m =>
                  obtain ⟨z, hz1, hz2⟩ := ih hxs m (by simpa using hi)
                  exact ⟨z, by rw [← hres]; simpa using hz1, hz2⟩

theorem mapMOpt_mem_none {α β : Type} {f : α → Option β} :
    ∀ {l : List α} {x : α}, x ∈ l → f x = none → mapMOpt f l = none := by
  intro l
  induction l with
  | nil => intro x hx; simp at hx
  | cons y ys ih =>
      intro x hx hfx
      simp only [mapMOpt]
      rcases List.mem_cons.1 hx with h | h
      · subst h
        rw [hfx]
      · cases hy : f y with
        | none => rfl
        | some z => rw [ih h hfx]

/-- Full characterization of a successful `PrometheeProblem::new`. -/
theorem new_some_iff {tbl : AlternativeTable} {gcs : List GeneralizedCriterion}
    {w : List ℚ} {P : PrometheeProblem} :
    PrometheeProblem.new tbl gcs w = some P ↔
      gcs.length = tbl.q ∧ w.length = tbl.q ∧
      ∃ m, mapMOpt (fun k =>
          match gcs.getD k GeneralizedCriterion.Usual with
          | GeneralizedCriterion.Linear _ _ | GeneralizedCriterion.VShape _ =>
              some (some (argsortAsc (fksOf tbl k) tbl.n))
          | GeneralizedCriterion.Usual => some none
          | _ => none) (List.range tbl.q) = some m ∧
        P = { n := tbl.n, q := tbl.q, alt_table := tbl, argsorted_eval_matrix := m,
              generalized_criteria := gcs,
              weights := w.map (fun x => x / w.sum) } := by
  unfold PrometheeProblem.new
  simp only []
  constructor
  · intro h
    by_cases h1 : gcs.length ≠ tbl.q
    · rw [if_pos h1] at h; exact absurd h (by simp)
    · rw [if_neg h1] at h
      by_cases h2 : (w.map (fun x => x / w.sum)).length ≠ tbl.q
      · rw [if_pos h2] at h; exact absurd h (by simp)
      · rw [if_neg h2] at h
        rw [Option.map_eq_some'] at h
        obtain ⟨m, hm, hP⟩ := h
        refine ⟨not_not.1 h1, by simpa using not_not.1 h2, m, hm, hP.symm⟩
  · rintro ⟨h1, h2, m, hm, hP⟩
    rw [if_neg (by simp [h1]), if_neg (by simp [h2]), hm]
    simp [hP]

theorem fksOf_eq_col_getD (tbl : AlternativeTable) (k : ℕ) :
    fksOf tbl k = fun i => (tbl.alternatives.map (fun a => (a.perf k).getD 0)).getD i 0 := by
  funext i
  unfold fksOf AlternativeTable.performance
  rw [List.getD_eq_getElem?_getD, List.getElem?_map, ← List.get?_eq_getElem?]
  cases h : tbl.alternatives.get? i with
  | none => simp [h]
  | some a => simp [h]

theorem norm_vshape_eq_linear (p d : ℚ) :
    normalize_v_shape p d = normalize_linear 0 p d := by
  unfold normalize_v_shape normalize_linear
  by_cases h1 : d < 0
  · rw [if_pos h1, if_pos h1]
  · rw [if_neg h1, if_neg h1]
    by_cases h2 : d < p
    · rw [if_pos h2, if_pos h2]
      rw [sub_zero, sub_zero]
    · rw [if_neg h2, if_neg h2]

theorem slow_flows_congr (n : ℕ) (dm : List (List ℚ)) {gc1 gc2 : GeneralizedCriterion}
    (h : ∀ d, gc1.normalisation d = gc2.normalisation d) :
    slow_unicriterion_flows n dm gc1 = slow_unicriterion_flows n dm gc2 := by
  have hfun : gc1.normalisation = gc2.normalisation := funext h
  unfold slow_unicriterion_flows
  rw [hfun]

end Promethee

namespace Promethee

set_option maxHeartbeats 2000000 in
/-- On a problem built by `PrometheeProblem::new`, for a non-degenerate
`VShape`/`Linear` criterion, the pair of fast unicriterion flow vectors
(computed from the cached ascending-sort permutation) equals the pair produced
by the slow quadratic algorithm on the matrix of signed differences. -/
theorem fast_unicriterion_flows_eq_slow
    (tbl : AlternativeTable) (gcs : List GeneralizedCriterion) (w : List ℚ)
    (P : PrometheeProblem) (hnew : PrometheeProblem.new tbl gcs w = some P)
    (k : ℕ) (hk : k < tbl.q)
    (hcrit : (∃ pp, gcs.getD k GeneralizedCriterion.Usual =
                GeneralizedCriterion.VShape pp ∧ 0 < pp) ∨
             (∃ qq pp, gcs.getD k GeneralizedCriterion.Usual =
                GeneralizedCriterion.Linear qq pp ∧ qq < pp)) :
    P.fast_unicriterion_flows k =
      some (slow_unicriterion_flows tbl.n
        (dist_mat_of (tbl.alternatives.map (fun a => (a.perf k).getD 0)))
        (gcs.getD k GeneralizedCriterion.Usual)) := by
  obtain ⟨hglen, hwlen, m, hm, hP⟩ := new_some_iff.1 hnew
  have hcollen : (tbl.alternatives.map (fun a => (a.perf k).getD 0)).length = tbl.n := by
    simp [AlternativeTable.n]
  obtain ⟨y, hy1, hy2⟩ := mapMOpt_get hm k (by simpa using hk)
  have hkrange : (List.range tbl.q).get ⟨k, by simpa using hk⟩ = k := List.get_range _ _
  rw [hkrange] at hy2
  have hargsperm : (argsortAsc (fksOf tbl k) tbl.n).Perm
      (List.range (tbl.alternatives.map (fun a => (a.perf k).getD 0)).length) := by
    rw [hcollen]
    exact argsortAsc_perm (fksOf tbl k) tbl.n
  have hargssorted : (argsortAsc (fksOf tbl k) tbl.n).Pairwise
      (fun i j => (tbl.alternatives.map (fun a => (a.perf k).getD 0)).getD i 0 ≤
        (tbl.alternatives.map (fun a => (a.perf k).getD 0)).getD j 0) := by
    refine (argsortAsc_sorted (fksOf tbl k) tbl.n).imp ?_
    intro a b hab
    rw [fksOf_eq_col_getD tbl k] at hab
    exact hab
  have hmatrix : P.argsorted_eval_matrix.getD k none = y := by
    rw [hP]
    simp only []
    rw [List.getD_eq_getElem?_getD, ← List.get?_eq_getElem?, hy1]
    rfl
  have hq : P.q = tbl.q := by rw [hP]
  have hn : P.n = tbl.n := by rw [hP]
  have htable : P.alt_table = tbl := by rw [hP]
  have hgc : P.generalized_criteria = gcs := by rw [hP]
  have hfpos : ∀ qt pp args, P.fast_pos_unicriterion_flow k qt pp args
      = fast_pos_loop (tbl.alternatives.map (fun a => (a.perf k).getD 0)).length
          (fun i => (tbl.alternatives.map (fun a => (a.perf k).getD 0)).getD i 0) qt pp
          args [] args 0 0
          (List.replicate (tbl.alternatives.map (fun a => (a.perf k).getD 0)).length 0) := by
    intro qt pp args
    unfold PrometheeProblem.fast_pos_unicriterion_flow
    rw [hn, htable, hcollen, fksOf_eq_col_getD tbl k]
  have hfneg : ∀ qt pp args, P.fast_neg_unicriterion_flow k qt pp args
      = fast_neg_loop (tbl.alternatives.map (fun a => (a.perf k).getD 0)).length
          (fun i => (tbl.alternatives.map (fun a => (a.perf k).getD 0)).getD i 0) qt pp
          args.reverse args.reverse [] 0 0
          (List.replicate (tbl.alternatives.map (fun a => (a.perf k).getD 0)).length 0) := by
    intro qt pp args
    unfold PrometheeProblem.fast_neg_unicriterion_flow
    rw [hn, htable, hcollen, fksOf_eq_col_getD tbl k]
  unfold PrometheeProblem.fast_unicriterion_flows
  rw [hq, if_neg (not_le.2 hk), hgc]
  rcases hcrit with ⟨pp, hv, hpp⟩ | ⟨qq, pp, hv, hqqpp⟩
  · rw [hv]
    simp only []
    rw [hv] at hy2
    simp only [Option.some_inj] at hy2
    rw [hmatrix, ← hy2]
    simp only [Option.map_some']
    congr 1
    have hslow : slow_unicriterion_flows tbl.n
        (dist_mat_of (tbl.alternatives.map (fun a => (a.perf k).getD 0)))
        (GeneralizedCriterion.VShape pp)
        = slow_unicriterion_flows tbl.n
        (dist_mat_of (tbl.alternatives.map (fun a => (a.perf k).getD 0)))
        (GeneralizedCriterion.Linear 0 pp) := by
      refine slow_flows_congr tbl.n _ (fun d => ?_)
      show normalize_v_shape pp d = normalize_linear 0 pp d
      exact norm_vshape_eq_linear pp d
    rw [hslow]
    have hqp : (0 : ℚ) < pp ∨ ((0 : ℚ) = pp ∧
        ∀ i < (tbl.alternatives.map (fun a => (a.perf k).getD 0)).length,
        ∀ j < (tbl.alternatives.map (fun a => (a.perf k).getD 0)).length,
          (tbl.alternatives.map (fun a => (a.perf k).getD 0)).getD i 0 -
            (tbl.alternatives.map (fun a => (a.perf k).getD 0)).getD j 0 ≠ pp) :=
      Or.inl hpp
    have hpos := fast_pos_eq_slow (tbl.alternatives.map (fun a => (a.perf k).getD 0))
      0 pp (argsortAsc (fksOf tbl k) tbl.n) hargsperm hargssorted hqp
    have hneg := fast_neg_eq_slow (tbl.alternatives.map (fun a => (a.perf k).getD 0))
      0 pp (argsortAsc (fksOf tbl k) tbl.n) hargsperm hargssorted hqp
    rw [hfpos, hfneg, hpos, hneg, ← hcollen]
  · rw [hv]
    simp only []
    rw [hv] at hy2
    simp only [Option.some_inj] at hy2
    rw [hmatrix, ← hy2]
    simp only [Option.map_some']
    congr 1
    have hqp : qq < pp ∨ (qq = pp ∧
        ∀ i < (tbl.alternatives.map (fun a => (a.perf k).getD 0)).length,
        ∀ j < (tbl.alternatives.map (fun a => (a.perf k).getD 0)).length,
          (tbl.alternatives.map (fun a => (a.perf k).getD 0)).getD i 0 -
            (tbl.alternatives.map (fun a => (a.perf k).getD 0)).getD j 0 ≠ pp) :=
      Or.inl hqqpp
    have hpos := fast_pos_eq_slow (tbl.alternatives.map (fun a => (a.perf k).getD 0))
      qq pp (argsortAsc (fksOf tbl k) tbl.n) hargsperm hargssorted hqp
    have hneg := fast_neg_eq_slow (tbl.alternatives.map (fun a => (a.perf k).getD 0))
      qq pp (argsortAsc (fksOf tbl k) tbl.n) hargsperm hargssorted hqp
    rw [hfpos, hfneg, hpos, hneg, ← hcollen]

end Promethee

namespace Promethee

theorem mapMOpt_map_rel {α β γ : Type} {g : α → Option β} {h : β → γ} {h2 : α → γ}
    (hrel : ∀ x y, g x = some y → h y = h2 x) :
    ∀ {l : List α} {l2 : List β}, mapMOpt g l = some l2 → l2.map h = l.map h2 := by
  intro l
  induction l with
  | nil => intro l2 hl; simp [mapMOpt] at hl; simp [← hl]
  | cons x xs ih =>
      intro l2 hl
      simp only [mapMOpt] at hl
      cases hx : g x with
      | none => rw [hx] at hl; simp at hl
      | some y =>
          rw [hx] at hl
          cases hxs : mapMOpt g xs with
          | none => rw [hxs] at hl; simp at hl
          | some ys =>
              rw [hxs] at hl
              simp only [Option.some_inj] at hl
              rw [← hl]
              simp only [List.map_cons]
              rw [hrel x y hx, ih hxs]

theorem get?_set_self (l : List ℚ) (i : ℕ) (v : ℚ) (h : i < l.length) :
    (l.set i v).get? i = some v := by
  induction l generalizing i with
  | nil => simp at h
  | cons x xs ih =>
      cases i with
      | zero => rfl
      | succ m => simpa using ih m (by simpa using h)

/-- Flipping a criterion direction negates exactly that column and preserves
the table dimensions. -/
theorem swap_criteria_direction_col {tbl tbl' : AlternativeTable} {k : ℕ}
    (hswap : tbl.swap_criteria_direction k = some tbl') :
    tbl'.alternatives.map (fun a => (a.perf k).getD 0)
        = (tbl.alternatives.map (fun a => (a.perf k).getD 0)).map (fun x => -x) ∧
      tbl'.q = tbl.q ∧ tbl'.n = tbl.n := by
  unfold AlternativeTable.swap_criteria_direction at hswap
  by_cases hkd : k < tbl.criteria_direction.length
  · rw [if_pos hkd, Option.map_eq_some'] at hswap
    obtain ⟨alts, halts, htbl'⟩ := hswap
    have hrel : ∀ (a a' : Alternative),
        ((a.perf k).bind (fun v => a.change_perf k (-v))) = some a' →
        (∀ m : ℕ, (a'.perf m).getD 0 = if m = k then -((a.perf m).getD 0)
          else (a.perf m).getD 0) ∧ a'.performances.length = a.performances.length := by
      intro a a' hb
      rw [Option.bind_eq_some] at hb
      obtain ⟨v, hv, hch⟩ := hb
      unfold Alternative.change_perf at hch
      by_cases hlen : k < a.performances.length
      · rw [if_pos hlen, Option.some_inj] at hch
        constructor
        · intro m
          rw [← hch]
          unfold Alternative.perf
          simp only []
          by_cases hm : m = k
          · subst hm
            rw [if_pos rfl, get?_set_self _ _ _ hlen,
              show a.performances.get? m = some v from hv]
            rfl
          · rw [if_neg hm, List.get?_eq_getElem?, List.get?_eq_getElem?,
              List.getElem?_set_ne (fun hc => hm hc.symm)]
        · rw [← hch]
          simp
      · rw [if_neg hlen] at hch
        simp at hch
    refine ⟨?_, ?_, ?_⟩
    · rw [htbl'.symm]
      simp only []
      rw [List.map_map]
      exact mapMOpt_map_rel
        (fun a a' hb => by rw [(hrel a a' hb).1 k, if_pos rfl]; rfl) halts
    · rw [htbl'.symm]
      unfold AlternativeTable.q
      simp only []
      cases hl : tbl.alternatives with
      | nil =>
          rw [hl] at halts
          simp only [mapMOpt, Option.some_inj] at halts
          rw [← halts]
      | cons a as =>
          rw [hl] at halts
          simp only [mapMOpt] at halts
          cases ha : (a.perf k).bind (fun v => a.change_perf k (-v)) with
          | none => rw [ha] at halts; simp at halts
          | some a' =>
              rw [ha] at halts
              cases has : mapMOpt (fun a => (a.perf k).bind
                  (fun v => a.change_perf k (-v))) as with
              | none => rw [has] at halts; simp at halts
              | some as' =>
                  rw [has] at halts
                  simp only [Option.some_inj] at halts
                  rw [← halts]
                  simp only [List.headD_cons]
                  exact (hrel a a' ha).2
    · rw [htbl'.symm]
      unfold AlternativeTable.n
      simp only []
      exact mapMOpt_length halts
  · rw [if_neg hkd] at hswap
    exact absurd hswap (by simp)

end Promethee

namespace Promethee

theorem solve_unicrit_flows {P : PrometheeProblem} {R : Promethee2Result}
    (hsolve : P.solve = some R) (k : ℕ) (hk : k < P.q) :
    P.unicriterion_flows k =
      some (R.unicrit_positive_flows.getD k [], R.unicrit_negative_flows.getD k []) := by
  unfold PrometheeProblem.solve at hsolve
  rw [Option.map_eq_some'] at hsolve
  obtain ⟨ufs, hufs, hR⟩ := hsolve
  obtain ⟨y, hy1, hy2⟩ := mapMOpt_get hufs k (by simpa using hk)
  rw [List.get_range] at hy2
  have hpos : (ufs.map Prod.fst).getD k [] = y.1 := by
    rw [List.getD_eq_getElem?_getD, List.getElem?_map, ← List.get?_eq_getElem?, hy1]
    rfl
  have hneg : (ufs.map Prod.snd).getD k [] = y.2 := by
    rw [List.getD_eq_getElem?_getD, List.getElem?_map, ← List.get?_eq_getElem?, hy1]
    rfl
  rw [hy2, ← hR]
  show some y = some ((ufs.map Prod.fst).getD k [], (ufs.map Prod.snd).getD k [])
  rw [hpos, hneg]

theorem unicriterion_flows_fast_dispatch {P : PrometheeProblem} {k : ℕ} (hk : k < P.q)
    (h : (∃ pp, P.generalized_criteria.getD k GeneralizedCriterion.Usual =
            GeneralizedCriterion.VShape pp) ∨
         (∃ qq pp, P.generalized_criteria.getD k GeneralizedCriterion.Usual =
            GeneralizedCriterion.Linear qq pp)) :
    P.unicriterion_flows k = P.fast_unicriterion_flows k := by
  unfold PrometheeProblem.unicriterion_flows
  rw [if_neg (not_le.2 hk)]
  rcases h with ⟨pp, hv⟩ | ⟨qq, pp, hv⟩ <;> rw [hv]

theorem unicriterion_flows_slow_dispatch {P : PrometheeProblem} {k : ℕ} (hk : k < P.q)
    (h : P.generalized_criteria.getD k GeneralizedCriterion.Usual =
      GeneralizedCriterion.Usual) :
    P.unicriterion_flows k = (P.alt_table.criterion k).map (fun col =>
      slow_unicriterion_flows P.n (dist_mat_of col) GeneralizedCriterion.Usual) := by
  unfold PrometheeProblem.unicriterion_flows
  rw [if_neg (not_le.2 hk), h]

theorem criterion_eq_col {tbl : AlternativeTable} {k : ℕ} (hk : k < tbl.q) :
    tbl.criterion k = some (tbl.alternatives.map (fun a => (a.perf k).getD 0)) := by
  unfold AlternativeTable.criterion
  rw [if_pos hk]

set_option maxHeartbeats 2000000 in
/-- Flipping criterion `k`'s optimization direction (negating its column) and
re-solving swaps that criterion's unicriterion positive and negative flow
vectors, for `Usual`, non-degenerate `VShape` and non-degenerate `Linear`
preference functions. -/
theorem promethee_flip_swap
    (tbl tbl' : AlternativeTable) (gcs : List GeneralizedCriterion) (w : List ℚ)
    (P P' : PrometheeProblem) (R R' : Promethee2Result) (k : ℕ)
    (hswap : tbl.swap_criteria_direction k = some tbl')
    (hnew : PrometheeProblem.new tbl gcs w = some P)
    (hnew' : PrometheeProblem.new tbl' gcs w = some P')
    (hk : k < tbl.q)
    (hcrit : gcs.getD k GeneralizedCriterion.Usual = GeneralizedCriterion.Usual ∨
             (∃ pp, gcs.getD k GeneralizedCriterion.Usual =
                GeneralizedCriterion.VShape pp ∧ 0 < pp) ∨
             (∃ qq pp, gcs.getD k GeneralizedCriterion.Usual =
                GeneralizedCriterion.Linear qq pp ∧ qq < pp))
    (hsolve : P.solve = some R) (hsolve' : P'.solve = some R') :
    R'.unicrit_positive_flows.getD k [] = R.unicrit_negative_flows.getD k [] ∧
    R'.unicrit_negative_flows.getD k [] = R.unicrit_positive_flows.getD k [] := by
  obtain ⟨hcol', hq', hn'⟩ := swap_criteria_direction_col hswap
  have hk' : k < tbl'.q := by rw [hq']; exact hk
  have hPq : P.q = tbl.q := by
    obtain ⟨_, _, m, _, hP⟩ := new_some_iff.1 hnew
    rw [hP]
  have hP'q : P'.q = tbl'.q := by
    obtain ⟨_, _, m, _, hP'⟩ := new_some_iff.1 hnew'
    rw [hP']
  have hPtbl : P.alt_table = tbl := by
    obtain ⟨_, _, m, _, hP⟩ := new_some_iff.1 hnew
    rw [hP]
  have hP'tbl : P'.alt_table = tbl' := by
    obtain ⟨_, _, m, _, hP'⟩ := new_some_iff.1 hnew'
    rw [hP']
  have hPn : P.n = tbl.n := by
    obtain ⟨_, _, m, _, hP⟩ := new_some_iff.1 hnew
    rw [hP]
  have hP'n : P'.n = tbl'.n := by
    obtain ⟨_, _, m, _, hP'⟩ := new_some_iff.1 hnew'
    rw [hP']
  have hPgc : P.generalized_criteria = gcs := by
    obtain ⟨_, _, m, _, hP⟩ := new_some_iff.1 hnew
    rw [hP]
  have hP'gc : P'.generalized_criteria = gcs := by
    obtain ⟨_, _, m, _, hP'⟩ := new_some_iff.1 hnew'
    rw [hP']
  have h1 := solve_unicrit_flows hsolve k (by rw [hPq]; exact hk)
  have h2 := solve_unicrit_flows hsolve' k (by rw [hP'q]; exact hk')
  have hgc : gcs.getD k GeneralizedCriterion.Usual = gcs.getD k GeneralizedCriterion.Usual :=
    rfl
  -- both problems' flows against the slow reference
  have hcore : P'.unicriterion_flows k
      = some (R.unicrit_negative_flows.getD k [], R.unicrit_positive_flows.getD k []) := by
    have hswappair : slow_unicriterion_flows tbl.n
        (dist_mat_of ((tbl.alternatives.map (fun a => (a.perf k).getD 0)).map
          (fun x => -x))) (gcs.getD k GeneralizedCriterion.Usual)
        = ((slow_unicriterion_flows tbl.n
            (dist_mat_of (tbl.alternatives.map (fun a => (a.perf k).getD 0)))
            (gcs.getD k GeneralizedCriterion.Usual)).snd,
           (slow_unicriterion_flows tbl.n
            (dist_mat_of (tbl.alternatives.map (fun a => (a.perf k).getD 0)))
            (gcs.getD k GeneralizedCriterion.Usual)).fst) :=
      Prod.ext (slow_neg_col_fst _ _ _) (slow_neg_col_snd _ _ _)
    rcases hcrit with hu | hvl
    · -- the `Usual` criterion: quadratic path on both problems
      have hd1 := unicriterion_flows_slow_dispatch (P := P) (k := k)
        (by rw [hPq]; exact hk) (by rw [hPgc]; exact hu)
      have hd2 := unicriterion_flows_slow_dispatch (P := P') (k := k)
        (by rw [hP'q]; exact hk') (by rw [hP'gc]; exact hu)
      rw [hPtbl, hPn, criterion_eq_col hk, Option.map_some'] at hd1
      rw [hP'tbl, hP'n, criterion_eq_col hk', Option.map_some', hn', hcol'] at hd2
      have hpair : slow_unicriterion_flows tbl.n
          (dist_mat_of (tbl.alternatives.map (fun a => (a.perf k).getD 0)))
          GeneralizedCriterion.Usual
          = (R.unicrit_positive_flows.getD k [], R.unicrit_negative_flows.getD k []) := by
        rw [← Option.some_inj, ← hd1, h1]
      rw [hd2]
      rw [hu] at hswappair
      rw [hswappair, hpair]
    · -- the fast path on both problems, through the slow reference
      have hvl' : (∃ pp, gcs.getD k GeneralizedCriterion.Usual =
            GeneralizedCriterion.VShape pp) ∨
          (∃ qq pp, gcs.getD k GeneralizedCriterion.Usual =
            GeneralizedCriterion.Linear qq pp) := by
        rcases hvl with ⟨pp, hv, _⟩ | ⟨qq, pp, hv, _⟩
        · exact Or.inl ⟨pp, hv⟩
        · exact Or.inr ⟨qq, pp, hv⟩
      have hd1 := unicriterion_flows_fast_dispatch (P := P) (k := k)
        (by rw [hPq]; exact hk) (by rw [hPgc]; exact hvl')
      have hd2 := unicriterion_flows_fast_dispatch (P := P') (k := k)
        (by rw [hP'q]; exact hk') (by rw [hP'gc]; exact hvl')
      have hf1 := fast_unicriterion_flows_eq_slow tbl gcs w P hnew k hk hvl
      have hf2 := fast_unicriterion_flows_eq_slow tbl' gcs w P' hnew' k hk' hvl
      rw [hn', hcol'] at hf2
      have hpair : slow_unicriterion_flows tbl.n
          (dist_mat_of (tbl.alternatives.map (fun a => (a.perf k).getD 0)))
          (gcs.getD k GeneralizedCriterion.Usual)
          = (R.unicrit_positive_flows.getD k [], R.unicrit_negative_flows.getD k []) := by
        rw [← Option.some_inj, ← hf1, ← hd1, h1]
      rw [hd2, hf2, hswappair, hpair]
  rw [h2] at hcore
  rw [Option.some_inj, Prod.ext_iff] at hcore
  exact ⟨hcore.1, hcore.2⟩

end Promethee

namespace Promethee

theorem sum_map_div_self (w : List ℚ) (S : ℚ) :
    (w.map (fun x => x / S)).sum = w.sum / S := by
  induction w with
  | nil => simp
  | cons x xs ih => simp [ih, add_div]

theorem norm_ushape_eq_linear (p d : ℚ) :
    (GeneralizedCriterion.UShape p).normalisation d = normalize_linear p p d := by
  show (if d < p then 0 else 1) = normalize_linear p p d
  unfold normalize_linear
  by_cases h : d < p
  · rw [if_pos h, if_pos h]
  · rw [if_neg h, if_neg h, if_neg h]

set_option maxHeartbeats 2000000 in
/-- On a problem built by `PrometheeProblem::new`, a degenerate `Linear{q=p}`
criterion's fast flows coincide with the slow quadratic algorithm run with the
`UShape{p}` step function, provided no ordered pair of performances differs by
exactly `p`. -/
theorem fast_unicriterion_flows_degenerate
    (tbl : AlternativeTable) (gcs : List GeneralizedCriterion) (w : List ℚ)
    (P : PrometheeProblem) (hnew : PrometheeProblem.new tbl gcs w = some P)
    (k : ℕ) (hk : k < tbl.q) (pp : ℚ)
    (hv : gcs.getD k GeneralizedCriterion.Usual = GeneralizedCriterion.Linear pp pp)
    (hnop : ∀ i < (tbl.alternatives.map (fun a => (a.perf k).getD 0)).length,
            ∀ j < (tbl.alternatives.map (fun a => (a.perf k).getD 0)).length,
      (tbl.alternatives.map (fun a => (a.perf k).getD 0)).getD i 0 -
        (tbl.alternatives.map (fun a => (a.perf k).getD 0)).getD j 0 ≠ pp) :
    P.fast_unicriterion_flows k =
      some (slow_unicriterion_flows tbl.n
        (dist_mat_of (tbl.alternatives.map (fun a => (a.perf k).getD 0)))
        (GeneralizedCriterion.UShape pp)) := by
  obtain ⟨hglen, hwlen, m, hm, hP⟩ := new_some_iff.1 hnew
  have hcollen : (tbl.alternatives.map (fun a => (a.perf k).getD 0)).length = tbl.n := by
    simp [AlternativeTable.n]
  obtain ⟨y, hy1, hy2⟩ := mapMOpt_get hm k (by simpa using hk)
  have hkrange : (List.range tbl.q).get ⟨k, by simpa using hk⟩ = k := List.get_range _ _
  rw [hkrange] at hy2
  have hargsperm : (argsortAsc (fksOf tbl k) tbl.n).Perm
      (List.range (tbl.alternatives.map (fun a => (a.perf k).getD 0)).length) := by
    rw [hcollen]
    exact argsortAsc_perm (fksOf tbl k) tbl.n
  have hargssorted : (argsortAsc (fksOf tbl k) tbl.n).Pairwise
      (fun i j => (tbl.alternatives.map (fun a => (a.perf k).getD 0)).getD i 0 ≤
        (tbl.alternatives.map (fun a => (a.perf k).getD 0)).getD j 0) := by
    refine (argsortAsc_sorted (fksOf tbl k) tbl.n).imp ?_
    intro a b hab
    rw [fksOf_eq_col_getD tbl k] at hab
    exact hab
  have hmatrix : P.argsorted_eval_matrix.getD k none = y := by
    rw [hP]
    simp only []
    rw [List.getD_eq_getElem?_getD, ← List.get?_eq_getElem?, hy1]
    rfl
  have hq : P.q = tbl.q := by rw [hP]
  have hn : P.n = tbl.n := by rw [hP]
  have htable : P.alt_table = tbl := by rw [hP]
  have hgc : P.generalized_criteria = gcs := by rw [hP]
  have hfpos : ∀ qt ppx args, P.fast_pos_unicriterion_flow k qt ppx args
      = fast_pos_loop (tbl.alternatives.map (fun a => (a.perf k).getD 0)).length
          (fun i => (tbl.alternatives.map (fun a => (a.perf k).getD 0)).getD i 0) qt ppx
          args [] args 0 0
          (List.replicate (tbl.alternatives.map (fun a => (a.perf k).getD 0)).length 0) := by
    intro qt ppx args
    unfold PrometheeProblem.fast_pos_unicriterion_flow
    rw [hn, htable, hcollen, fksOf_eq_col_getD tbl k]
  have hfneg : ∀ qt ppx args, P.fast_neg_unicriterion_flow k qt ppx args
      = fast_neg_loop (tbl.alternatives.map (fun a => (a.perf k).getD 0)).length
          (fun i => (tbl.alternatives.map (fun a => (a.perf k).getD 0)).getD i 0) qt ppx
          args.reverse args.reverse [] 0 0
          (List.replicate (tbl.alternatives.map (fun a => (a.perf k).getD 0)).length 0) := by
    intro qt ppx args
    unfold PrometheeProblem.fast_neg_unicriterion_flow
    rw [hn, htable, hcollen, fksOf_eq_col_getD tbl k]
  unfold PrometheeProblem.fast_unicriterion_flows
  rw [hq, if_neg (not_le.2 hk), hgc, hv]
  simp only []
  rw [hv] at hy2
  simp only [Option.some_inj] at hy2
  rw [hmatrix, ← hy2]
  simp only [Option.map_some']
  congr 1
  have hslow : slow_unicriterion_flows tbl.n
      (dist_mat_of (tbl.alternatives.map (fun a => (a.perf k).getD 0)))
      (GeneralizedCriterion.UShape pp)
      = slow_unicriterion_flows tbl.n
      (dist_mat_of (tbl.alternatives.map (fun a => (a.perf k).getD 0)))
      (GeneralizedCriterion.Linear pp pp) := by
    refine slow_flows_congr tbl.n _ (fun d => ?_)
    exact norm_ushape_eq_linear pp d
  rw [hslow]
  have hqp : pp < pp ∨ (pp = pp ∧
      ∀ i < (tbl.alternatives.map (fun a => (a.perf k).getD 0)).length,
      ∀ j < (tbl.alternatives.map (fun a => (a.perf k).getD 0)).length,
        (tbl.alternatives.map (fun a => (a.perf k).getD 0)).getD i 0 -
          (tbl.alternatives.map (fun a => (a.perf k).getD 0)).getD j 0 ≠ pp) :=
    Or.inr ⟨rfl, hnop⟩
  have hpos := fast_pos_eq_slow (tbl.alternatives.map (fun a => (a.perf k).getD 0))
    pp pp (argsortAsc (fksOf tbl k) tbl.n) hargsperm hargssorted hqp
  have hneg := fast_neg_eq_slow (tbl.alternatives.map (fun a => (a.perf k).getD 0))
    pp pp (argsortAsc (fksOf tbl k) tbl.n) hargsperm hargssorted hqp
  rw [hfpos, hfneg, hpos, hneg, ← hcollen]

end Promethee

namespace Promethee

/-! ## Claim-level theorems -/

/-- C1, counterexample to the claim as stated: with the admissible degenerate
threshold pair `q = p = 1` on the valid two-alternative table `(0, 1)`, the
fast algorithm returns positive flows `[0, 0]` while the slow quadratic
algorithm returns `[0, 1]`; entry 1 differs by `1`, far beyond the `1e-9`
tolerance. -/
theorem C1_fast_slow_counterexample :
    AlternativeTable.new [{ name := "A", performances := [0] },
      { name := "B", performances := [1] }] = some exTable2 ∧
    PrometheeProblem.new exTable2 [GeneralizedCriterion.Linear 1 1] [1] =
      some exProblem211 ∧
    exProblem211.fast_unicriterion_flows 0 = some (([0, 0] : List ℚ), ([0, 0] : List ℚ)) ∧
    slow_unicriterion_flows exTable2.n
      (dist_mat_of (exTable2.alternatives.map (fun a => (a.perf 0).getD 0)))
      (GeneralizedCriterion.Linear 1 1) = (([0, 1] : List ℚ), ([1, 0] : List ℚ)) ∧
    ¬ ((1 : ℚ) - 0 ≤ 1 / 1000000000) := by
  refine ⟨by decide, ?_, ?_, ?_, by norm_num⟩
  · norm_num [PrometheeProblem.new, AlternativeTable.n, AlternativeTable.q, mapMOpt,
    argsortAsc, sortByKey, insertLe, fksOf, AlternativeTable.performance, Alternative.perf,
    List.get?, List.range_succ, exTable2, exProblem211]
  · norm_num [PrometheeProblem.unicriterion_flows, PrometheeProblem.fast_unicriterion_flows,
    PrometheeProblem.fast_pos_unicriterion_flow, PrometheeProblem.fast_neg_unicriterion_flow,
    fast_pos_loop, fast_neg_loop, fast_pos_evict, fast_neg_evict, fast_pos_admit,
    fast_neg_admit, fksOf, AlternativeTable.performance, Alternative.perf, List.get?,
    List.replicate, List.reverse_cons, exTable2, exProblem211]
  · norm_num [slow_unicriterion_flows, dist_mat_of, GeneralizedCriterion.normalisation,
    normalize_linear, normalize_v_shape, AlternativeTable.n, Alternative.perf, List.get?,
    List.unzip, exTable2]

/-- C1 (amended): for every table and every criterion whose preference
function is `VShape{p}` with `0 < p` or `Linear{q,p}` with `q < p`, the fast
algorithm (both fast flow functions, run on the construction-time
ascending-sort permutation of that criterion's column) produces exactly the
positive and negative flow vectors of the slow quadratic algorithm on the full
matrix of signed differences (arithmetic over `ℚ`). -/
theorem C1_fast_slow_equivalence
    (tbl : AlternativeTable) (gcs : List GeneralizedCriterion) (w : List ℚ)
    (P : PrometheeProblem) (hnew : PrometheeProblem.new tbl gcs w = some P)
    (k : ℕ) (hk : k < tbl.q)
    (hcrit : (∃ pp, gcs.getD k GeneralizedCriterion.Usual =
                GeneralizedCriterion.VShape pp ∧ 0 < pp) ∨
             (∃ qq pp, gcs.getD k GeneralizedCriterion.Usual =
                GeneralizedCriterion.Linear qq pp ∧ qq < pp)) :
    P.fast_unicriterion_flows k =
      some (slow_unicriterion_flows tbl.n
        (dist_mat_of (tbl.alternatives.map (fun a => (a.perf k).getD 0)))
        (gcs.getD k GeneralizedCriterion.Usual)) :=
  fast_unicriterion_flows_eq_slow tbl gcs w P hnew k hk hcrit

/-- Witness for C1 on the concrete table `(3, 2, 2)` with `VShape{p=3}`. -/
theorem C1_fast_slow_equivalence_witness :
    PrometheeProblem.new exTableVS [GeneralizedCriterion.VShape 3] [1] =
      some exProblemVS ∧
    0 < exTableVS.q ∧
    exProblemVS.fast_unicriterion_flows 0 =
      some (slow_unicriterion_flows exTableVS.n
        (dist_mat_of (exTableVS.alternatives.map (fun a => (a.perf 0).getD 0)))
        ([GeneralizedCriterion.VShape 3].getD 0 GeneralizedCriterion.Usual)) :=
  ⟨by norm_num [PrometheeProblem.new, AlternativeTable.n, AlternativeTable.q, mapMOpt,
    argsortAsc, sortByKey, insertLe, fksOf, AlternativeTable.performance, Alternative.perf,
    List.get?, List.range_succ, exTableVS, exProblemVS], by decide,
   C1_fast_slow_equivalence exTableVS [GeneralizedCriterion.VShape 3] [1]
     exProblemVS (by norm_num [PrometheeProblem.new, AlternativeTable.n, AlternativeTable.q, mapMOpt,
    argsortAsc, sortByKey, insertLe, fksOf, AlternativeTable.performance, Alternative.perf,
    List.get?, List.range_succ, exTableVS, exProblemVS]) 0 (by decide)
     (Or.inl ⟨3, by decide, by decide⟩)⟩

/-- C2: adding a `UShape` criterion makes `PrometheeProblem::new` reach the
`unimplemented!` wildcard arm of the sort-cache dispatch and panic, instead of
constructing the problem and routing `UShape` to the slow algorithm.  The
normalisation function itself does support `UShape`. -/
theorem C2_ushape_construction_panics :
    PrometheeProblem.new exTable2 [GeneralizedCriterion.UShape 1] [1] = none ∧
    (GeneralizedCriterion.UShape 1).normalisation 2 = 1 ∧
    (GeneralizedCriterion.UShape 1).normalisation 0 = 0 := by
  refine ⟨?_, by decide, by decide⟩
  norm_num [PrometheeProblem.new, AlternativeTable.n, AlternativeTable.q, mapMOpt,
    argsortAsc, sortByKey, insertLe, fksOf, AlternativeTable.performance, Alternative.perf,
    List.get?, List.range_succ, exTable2]

/-- C3: with the all-zero weight vector `[0]`, `PrometheeProblem::new`
completes normally (no rejection); the stored weight is `0/0` (`NaN` in `f64`,
rendered `0` in the `ℚ` model). -/
theorem C3_zero_weights_construction_completes :
    PrometheeProblem.new exTable2 [GeneralizedCriterion.Usual] [0] =
      some exProblemZeroW ∧
    exProblemZeroW.weights = [(0 : ℚ) / 0] := by
  refine ⟨?_, by norm_num [exProblemZeroW]⟩
  norm_num [PrometheeProblem.new, AlternativeTable.n, AlternativeTable.q, mapMOpt,
    argsortAsc, sortByKey, insertLe, fksOf, AlternativeTable.performance, Alternative.perf,
    List.get?, List.range_succ, exTable2, exProblemZeroW]

/-- C4: with reversed thresholds `Linear{q=2,p=1}` (q > p), construction
succeeds: `PrometheeProblem::new` performs no `q ≤ p` validation. -/
theorem C4_linear_q_gt_p_construction_succeeds :
    PrometheeProblem.new exTable2 [GeneralizedCriterion.Linear 2 1] [1] =
      some exProblemQ21 := by
  norm_num [PrometheeProblem.new, AlternativeTable.n, AlternativeTable.q, mapMOpt,
    argsortAsc, sortByKey, insertLe, fksOf, AlternativeTable.performance, Alternative.perf,
    List.get?, List.range_succ, exTable2, exProblemQ21]

/-- C5, counterexample to the claim as stated: on the two-alternative table
`(0, 1)` with distinct performances and degenerate `Linear{q=1,p=1}`, the
criterion's flows are `([0,0],[0,0])`, not the `UShape{p=1}` slow flows
`([0,1],[1,0])`: the pair at distance exactly `p` breaks the equivalence. -/
theorem C5_degenerate_counterexample :
    exProblem211.unicriterion_flows 0 = some (([0, 0] : List ℚ), ([0, 0] : List ℚ)) ∧
    slow_unicriterion_flows exTable2.n
      (dist_mat_of (exTable2.alternatives.map (fun a => (a.perf 0).getD 0)))
      (GeneralizedCriterion.UShape 1) = (([0, 1] : List ℚ), ([1, 0] : List ℚ)) ∧
    ((0 : ℚ) ≠ 1) ∧ (([0, 0] : List ℚ) ≠ [0, 1]) := by
  refine ⟨?_, ?_, by decide, by decide⟩
  · norm_num [PrometheeProblem.unicriterion_flows, PrometheeProblem.fast_unicriterion_flows,
    PrometheeProblem.fast_pos_unicriterion_flow, PrometheeProblem.fast_neg_unicriterion_flow,
    fast_pos_loop, fast_neg_loop, fast_pos_evict, fast_neg_evict, fast_pos_admit,
    fast_neg_admit, fksOf, AlternativeTable.performance, Alternative.perf, List.get?,
    List.replicate, List.reverse_cons, exTable2, exProblem211]
  · norm_num [slow_unicriterion_flows, dist_mat_of, GeneralizedCriterion.normalisation,
    normalize_linear, normalize_v_shape, AlternativeTable.n, Alternative.perf, List.get?,
    List.unzip, exTable2]

/-- C5 (amended): for a degenerate `Linear{q=p}` criterion, computing the
criterion's flows performs no division by `p - q` (the ramp term is
short-circuited by the `p ≠ q` test in the embedding exactly as in the code),
and the resulting flow vectors equal the slow algorithm run with the
`UShape{p}` step function, provided no ordered pair of alternatives (an
alternative paired with itself included) differs by exactly `p`. -/
theorem C5_degenerate_linear_equals_ushape
    (tbl : AlternativeTable) (gcs : List GeneralizedCriterion) (w : List ℚ)
    (P : PrometheeProblem) (hnew : PrometheeProblem.new tbl gcs w = some P)
    (k : ℕ) (hk : k < tbl.q) (pp : ℚ)
    (hv : gcs.getD k GeneralizedCriterion.Usual = GeneralizedCriterion.Linear pp pp)
    (hnop : ∀ i < (tbl.alternatives.map (fun a => (a.perf k).getD 0)).length,
            ∀ j < (tbl.alternatives.map (fun a => (a.perf k).getD 0)).length,
      (tbl.alternatives.map (fun a => (a.perf k).getD 0)).getD i 0 -
        (tbl.alternatives.map (fun a => (a.perf k).getD 0)).getD j 0 ≠ pp) :
    P.unicriterion_flows k =
      some (slow_unicriterion_flows tbl.n
        (dist_mat_of (tbl.alternatives.map (fun a => (a.perf k).getD 0)))
        (GeneralizedCriterion.UShape pp)) := by
  have hPq : P.q = tbl.q := by
    obtain ⟨_, _, m, _, hP⟩ := new_some_iff.1 hnew
    rw [hP]
  have hPgc : P.generalized_criteria = gcs := by
    obtain ⟨_, _, m, _, hP⟩ := new_some_iff.1 hnew
    rw [hP]
  rw [unicriterion_flows_fast_dispatch (by rw [hPq]; exact hk)
    (Or.inr ⟨pp, pp, by rw [hPgc]; exact hv⟩)]
  exact fast_unicriterion_flows_degenerate tbl gcs w P hnew k hk pp hv hnop

/-- Witness for C5 on the table `(0, 1)` with `Linear{q=5,p=5}` (no pair at
distance exactly 5). -/
theorem C5_degenerate_linear_equals_ushape_witness :
    PrometheeProblem.new exTable2 [GeneralizedCriterion.Linear 5 5] [1] =
      some exProblem255 ∧
    0 < exTable2.q ∧
    exProblem255.unicriterion_flows 0 =
      some (slow_unicriterion_flows exTable2.n
        (dist_mat_of (exTable2.alternatives.map (fun a => (a.perf 0).getD 0)))
        (GeneralizedCriterion.UShape 5)) :=
  ⟨by norm_num [PrometheeProblem.new, AlternativeTable.n, AlternativeTable.q, mapMOpt,
    argsortAsc, sortByKey, insertLe, fksOf, AlternativeTable.performance, Alternative.perf,
    List.get?, List.range_succ, exTable2, exProblem255], by decide,
   C5_degenerate_linear_equals_ushape exTable2 [GeneralizedCriterion.Linear 5 5] [1]
     exProblem255 (by norm_num [PrometheeProblem.new, AlternativeTable.n, AlternativeTable.q, mapMOpt,
    argsortAsc, sortByKey, insertLe, fksOf, AlternativeTable.performance, Alternative.perf,
    List.get?, List.range_succ, exTable2, exProblem255]) 0 (by decide) 5
     (by decide)
     (by
       intro i hi j hj
       norm_num [exTable2] at hi hj
       interval_cases i <;> interval_cases j <;>
        norm_num [exTable2, Alternative.perf, List.get?])⟩

/-- C6, counterexample to the claim as stated: with both net flows equal to
`0`, `ranked_alts()` returns `[1, 0]`, i.e. the tied alternatives appear in
descending original-index order, not ascending. -/
theorem C6_ties_counterexample :
    (⟨[0, 0], [], [0, 0], []⟩ : Promethee2Result).net_flows = [0, 0] ∧
    (⟨[0, 0], [], [0, 0], []⟩ : Promethee2Result).ranked_alts = [1, 0] ∧
    ¬ ((⟨[0, 0], [], [0, 0], []⟩ : Promethee2Result).ranked_alts.getD 0 0 <
        (⟨[0, 0], [], [0, 0], []⟩ : Promethee2Result).ranked_alts.getD 1 0) := by
  refine ⟨by norm_num [Promethee2Result.net_flows, List.zipWith], ?_, ?_⟩
  · norm_num [Promethee2Result.ranked_alts, Promethee2Result.net_flows, sortByKey, insertLe,
    enumFromQ, List.zipWith]
  · norm_num [Promethee2Result.ranked_alts, Promethee2Result.net_flows, sortByKey, insertLe,
    enumFromQ, List.zipWith]

/-- C6 (amended): among alternatives with exactly-equal net flows,
`ranked_alts()` lists indices in descending original order (the stable
ascending sort preserves index order among ties and the final reversal flips
it). -/
theorem C6_ties_descending_index (r : Promethee2Result) {u v : ℕ}
    (huv : u < v) (hv : v < r.ranked_alts.length)
    (heq : r.net_flows.getD (r.ranked_alts.getD u 0) 0
         = r.net_flows.getD (r.ranked_alts.getD v 0) 0) :
    r.ranked_alts.getD v 0 < r.ranked_alts.getD u 0 :=
  ranked_alts_ties_desc r huv hv heq

/-- Witness for C6 on a two-alternative result with tied net flows. -/
theorem C6_ties_descending_index_witness :
    (0 < 1) ∧
    (1 < (⟨[0, 0], [], [0, 0], []⟩ : Promethee2Result).ranked_alts.length) ∧
    ((⟨[0, 0], [], [0, 0], []⟩ : Promethee2Result).net_flows.getD
        ((⟨[0, 0], [], [0, 0], []⟩ : Promethee2Result).ranked_alts.getD 0 0) 0
      = (⟨[0, 0], [], [0, 0], []⟩ : Promethee2Result).net_flows.getD
        ((⟨[0, 0], [], [0, 0], []⟩ : Promethee2Result).ranked_alts.getD 1 0) 0) ∧
    (⟨[0, 0], [], [0, 0], []⟩ : Promethee2Result).ranked_alts.getD 1 0 <
      (⟨[0, 0], [], [0, 0], []⟩ : Promethee2Result).ranked_alts.getD 0 0 :=
  ⟨by decide, by norm_num [Promethee2Result.ranked_alts, Promethee2Result.net_flows, sortByKey, insertLe,
    enumFromQ, List.zipWith], by norm_num [Promethee2Result.ranked_alts, Promethee2Result.net_flows, sortByKey, insertLe,
    enumFromQ, List.zipWith],
   C6_ties_descending_index (⟨[0, 0], [], [0, 0], []⟩ : Promethee2Result)
     (by decide) (by norm_num [Promethee2Result.ranked_alts, Promethee2Result.net_flows, sortByKey, insertLe,
    enumFromQ, List.zipWith]) (by norm_num [Promethee2Result.ranked_alts, Promethee2Result.net_flows, sortByKey, insertLe,
    enumFromQ, List.zipWith])⟩

/-- C7: for a result whose flow vectors have length `n`, `ranked_alts()` is a
permutation of `0..n`, and the net flows read off along the returned order are
non-increasing. -/
theorem C7_ranking_permutation_monotone (r : Promethee2Result) (n : ℕ)
    (hp : r.positive_flows.length = n) (hn : r.negative_flows.length = n) :
    r.ranked_alts.Perm (List.range n) ∧
    r.ranked_alts.Pairwise
      (fun i j => r.net_flows.getD j 0 ≤ r.net_flows.getD i 0) := by
  constructor
  · have hlen : r.net_flows.length = n := by
      unfold Promethee2Result.net_flows
      rw [List.length_zipWith, hp, hn, min_self]
    have h := ranked_alts_perm_aux r
    rw [hlen] at h
    exact h
  · exact ranked_alts_sorted_desc r

/-- Witness for C7 on a two-alternative result. -/
theorem C7_ranking_permutation_monotone_witness :
    (⟨[1, 0], [], [0, 0], []⟩ : Promethee2Result).positive_flows.length = 2 ∧
    (⟨[1, 0], [], [0, 0], []⟩ : Promethee2Result).negative_flows.length = 2 ∧
    ((⟨[1, 0], [], [0, 0], []⟩ : Promethee2Result).ranked_alts.Perm (List.range 2) ∧
     (⟨[1, 0], [], [0, 0], []⟩ : Promethee2Result).ranked_alts.Pairwise
       (fun i j => (⟨[1, 0], [], [0, 0], []⟩ : Promethee2Result).net_flows.getD j 0 ≤
         (⟨[1, 0], [], [0, 0], []⟩ : Promethee2Result).net_flows.getD i 0)) :=
  ⟨by decide, by decide,
   C7_ranking_permutation_monotone (⟨[1, 0], [], [0, 0], []⟩ : Promethee2Result) 2
     (by decide) (by decide)⟩

/-- C8, counterexample to the claim as stated: on the table `(0, 1, 1)` with
degenerate `Linear{q=1,p=1}`, flipping the only criterion's direction gives a
new negative unicriterion flow vector `[0, 1/2, 0]` that differs from the
original positive one `[0, 0, 1/2]` (tied performances break the symmetry of
the degenerate fast path). -/
theorem C8_direction_flip_counterexample :
    exTable3.swap_criteria_direction 0 = some exTable3neg ∧
    PrometheeProblem.new exTable3 [GeneralizedCriterion.Linear 1 1] [1] =
      some exProblem3 ∧
    PrometheeProblem.new exTable3neg [GeneralizedCriterion.Linear 1 1] [1] =
      some exProblem3neg ∧
    exProblem3.solve.map (fun r => r.unicrit_positive_flows.getD 0 []) =
      some [0, 0, 1/2] ∧
    exProblem3neg.solve.map (fun r => r.unicrit_negative_flows.getD 0 []) =
      some [0, 1/2, 0] ∧
    (([0, (1 : ℚ)/2, 0] : List ℚ) ≠ [0, 0, 1/2]) := by
  refine ⟨by decide, ?_, ?_, ?_, ?_, by norm_num⟩
  · norm_num [PrometheeProblem.new, AlternativeTable.n, AlternativeTable.q, mapMOpt,
    argsortAsc, sortByKey, insertLe, fksOf, AlternativeTable.performance, Alternative.perf,
    List.get?, List.range_succ, exTable3, exProblem3]
  · norm_num [PrometheeProblem.new, AlternativeTable.n, AlternativeTable.q, mapMOpt,
    argsortAsc, sortByKey, insertLe, fksOf, AlternativeTable.performance, Alternative.perf,
    List.get?, List.range_succ, exTable3neg, exProblem3neg]
  · norm_num [PrometheeProblem.unicriterion_flows, PrometheeProblem.fast_unicriterion_flows,
    PrometheeProblem.fast_pos_unicriterion_flow, PrometheeProblem.fast_neg_unicriterion_flow,
    fast_pos_loop, fast_neg_loop, fast_pos_evict, fast_neg_evict, fast_pos_admit,
    fast_neg_admit, fksOf, AlternativeTable.performance, Alternative.perf, List.get?,
    List.replicate, List.reverse_cons,
    PrometheeProblem.solve, mapMOpt, enumFromQ, List.range_succ, List.zipWith, exTable3, exProblem3]
  · norm_num [PrometheeProblem.unicriterion_flows, PrometheeProblem.fast_unicriterion_flows,
    PrometheeProblem.fast_pos_unicriterion_flow, PrometheeProblem.fast_neg_unicriterion_flow,
    fast_pos_loop, fast_neg_loop, fast_pos_evict, fast_neg_evict, fast_pos_admit,
    fast_neg_admit, fksOf, AlternativeTable.performance, Alternative.perf, List.get?,
    List.replicate, List.reverse_cons,
    PrometheeProblem.solve, mapMOpt, enumFromQ, List.range_succ, List.zipWith, exTable3neg, exProblem3neg]

/-- C8 (amended): flipping criterion `k`'s optimization direction (negating
its column via `swap_criteria_direction`) and re-solving swaps that
criterion's unicriterion positive and negative flow vectors, provided
criterion `k`'s preference function is `Usual`, `VShape{p}` with `0 < p`, or
`Linear{q,p}` with `q < p`. -/
theorem C8_direction_flip_symmetry
    (tbl tbl' : AlternativeTable) (gcs : List GeneralizedCriterion) (w : List ℚ)
    (P P' : PrometheeProblem) (R R' : Promethee2Result) (k : ℕ)
    (hswap : tbl.swap_criteria_direction k = some tbl')
    (hnew : PrometheeProblem.new tbl gcs w = some P)
    (hnew' : PrometheeProblem.new tbl' gcs w = some P')
    (hk : k < tbl.q)
    (hcrit : gcs.getD k GeneralizedCriterion.Usual = GeneralizedCriterion.Usual ∨
             (∃ pp, gcs.getD k GeneralizedCriterion.Usual =
                GeneralizedCriterion.VShape pp ∧ 0 < pp) ∨
             (∃ qq pp, gcs.getD k GeneralizedCriterion.Usual =
                GeneralizedCriterion.Linear qq pp ∧ qq < pp))
    (hsolve : P.solve = some R) (hsolve' : P'.solve = some R') :
    R'.unicrit_positive_flows.getD k [] = R.unicrit_negative_flows.getD k [] ∧
    R'.unicrit_negative_flows.getD k [] = R.unicrit_positive_flows.getD k [] :=
  promethee_flip_swap tbl tbl' gcs w P P' R R' k hswap hnew hnew' hk hcrit hsolve hsolve'

/-- Witness for C8 on the table `(3, 2, 2)` with `VShape{p=3}`. -/
theorem C8_direction_flip_symmetry_witness :
    exTableVS.swap_criteria_direction 0 = some exTableVSneg ∧
    PrometheeProblem.new exTableVS [GeneralizedCriterion.VShape 3] [1] =
      some exProblemVS ∧
    PrometheeProblem.new exTableVSneg [GeneralizedCriterion.VShape 3] [1] =
      some exProblemVSneg ∧
    exProblemVS.solve = some exResultVS ∧
    exProblemVSneg.solve = some exResultVSneg ∧
    (exResultVSneg.unicrit_positive_flows.getD 0 [] =
        exResultVS.unicrit_negative_flows.getD 0 [] ∧
     exResultVSneg.unicrit_negative_flows.getD 0 [] =
        exResultVS.unicrit_positive_flows.getD 0 []) :=
  ⟨by decide,
   by norm_num [PrometheeProblem.new, AlternativeTable.n, AlternativeTable.q, mapMOpt,
    argsortAsc, sortByKey, insertLe, fksOf, AlternativeTable.performance, Alternative.perf,
    List.get?, List.range_succ, exTableVS, exProblemVS],
   by norm_num [PrometheeProblem.new, AlternativeTable.n, AlternativeTable.q, mapMOpt,
    argsortAsc, sortByKey, insertLe, fksOf, AlternativeTable.performance, Alternative.perf,
    List.get?, List.range_succ, exTableVSneg, exProblemVSneg],
   by norm_num [PrometheeProblem.unicriterion_flows, PrometheeProblem.fast_unicriterion_flows,
    PrometheeProblem.fast_pos_unicriterion_flow, PrometheeProblem.fast_neg_unicriterion_flow,
    fast_pos_loop, fast_neg_loop, fast_pos_evict, fast_neg_evict, fast_pos_admit,
    fast_neg_admit, fksOf, AlternativeTable.performance, Alternative.perf, List.get?,
    List.replicate, List.reverse_cons,
    PrometheeProblem.solve, mapMOpt, enumFromQ, List.range_succ, List.zipWith, exTableVS, exProblemVS, exResultVS],
   by norm_num [PrometheeProblem.unicriterion_flows, PrometheeProblem.fast_unicriterion_flows,
    PrometheeProblem.fast_pos_unicriterion_flow, PrometheeProblem.fast_neg_unicriterion_flow,
    fast_pos_loop, fast_neg_loop, fast_pos_evict, fast_neg_evict, fast_pos_admit,
    fast_neg_admit, fksOf, AlternativeTable.performance, Alternative.perf, List.get?,
    List.replicate, List.reverse_cons,
    PrometheeProblem.solve, mapMOpt, enumFromQ, List.range_succ, List.zipWith, exTableVSneg, exProblemVSneg, exResultVSneg],
   C8_direction_flip_symmetry exTableVS exTableVSneg [GeneralizedCriterion.VShape 3]
     [1] exProblemVS exProblemVSneg exResultVS exResultVSneg 0
     (by decide)
     (by norm_num [PrometheeProblem.new, AlternativeTable.n, AlternativeTable.q, mapMOpt,
    argsortAsc, sortByKey, insertLe, fksOf, AlternativeTable.performance, Alternative.perf,
    List.get?, List.range_succ, exTableVS, exProblemVS])
     (by norm_num [PrometheeProblem.new, AlternativeTable.n, AlternativeTable.q, mapMOpt,
    argsortAsc, sortByKey, insertLe, fksOf, AlternativeTable.performance, Alternative.perf,
    List.get?, List.range_succ, exTableVSneg, exProblemVSneg])
     (by decide)
     (Or.inr (Or.inl ⟨3, by decide, by decide⟩))
     (by norm_num [PrometheeProblem.unicriterion_flows, PrometheeProblem.fast_unicriterion_flows,
    PrometheeProblem.fast_pos_unicriterion_flow, PrometheeProblem.fast_neg_unicriterion_flow,
    fast_pos_loop, fast_neg_loop, fast_pos_evict, fast_neg_evict, fast_pos_admit,
    fast_neg_admit, fksOf, AlternativeTable.performance, Alternative.perf, List.get?,
    List.replicate, List.reverse_cons,
    PrometheeProblem.solve, mapMOpt, enumFromQ, List.range_succ, List.zipWith, exTableVS, exProblemVS, exResultVS])
     (by norm_num [PrometheeProblem.unicriterion_flows, PrometheeProblem.fast_unicriterion_flows,
    PrometheeProblem.fast_pos_unicriterion_flow, PrometheeProblem.fast_neg_unicriterion_flow,
    fast_pos_loop, fast_neg_loop, fast_pos_evict, fast_neg_evict, fast_pos_admit,
    fast_neg_admit, fksOf, AlternativeTable.performance, Alternative.perf, List.get?,
    List.replicate, List.reverse_cons,
    PrometheeProblem.solve, mapMOpt, enumFromQ, List.range_succ, List.zipWith, exTableVSneg, exProblemVSneg, exResultVSneg])⟩

/-- C9, counterexample to the claim as stated: the empty weight vector has all
entries (vacuously) positive, yet on a zero-criterion table construction
succeeds and the stored weights sum to `0`, not `1`. -/
theorem C9_weights_counterexample :
    AlternativeTable.new [{ name := "A", performances := [] }] = some exTableQ0 ∧
    PrometheeProblem.new exTableQ0 [] [] = some exProblemQ0 ∧
    (∀ x ∈ ([] : List ℚ), 0 < x) ∧
    exProblemQ0.weights.sum = 0 ∧ ((0 : ℚ) ≠ 1) := by
  refine ⟨by decide, ?_, by decide, by decide, by decide⟩
  norm_num [PrometheeProblem.new, AlternativeTable.n, AlternativeTable.q, mapMOpt,
    argsortAsc, sortByKey, insertLe, fksOf, AlternativeTable.performance, Alternative.perf,
    List.get?, List.range_succ, exTableQ0, exProblemQ0]

/-- C9 (amended): for every nonempty input weight vector with all entries
positive, the stored weights (each input weight divided by the input sum) sum
to exactly `1` over `ℚ`. -/
theorem C9_weights_sum_one
    (tbl : AlternativeTable) (gcs : List GeneralizedCriterion) (w : List ℚ)
    (P : PrometheeProblem) (hnew : PrometheeProblem.new tbl gcs w = some P)
    (hw : w ≠ []) (hpos : ∀ x ∈ w, 0 < x) :
    P.weights.sum = 1 := by
  obtain ⟨_, _, m, _, hP⟩ := new_some_iff.1 hnew
  have hS : 0 < w.sum := List.sum_pos w hpos hw
  have hw' : P.weights = w.map (fun x => x / w.sum) := by rw [hP]
  rw [hw', sum_map_div_self, div_self (ne_of_gt hS)]

/-- Witness for C9 with input weights `[2, 2]`. -/
theorem C9_weights_sum_one_witness :
    PrometheeProblem.new exTableW2
        [GeneralizedCriterion.Usual, GeneralizedCriterion.Usual] [2, 2] =
      some exProblemW2 ∧
    (([2, 2] : List ℚ) ≠ []) ∧
    (∀ x ∈ ([2, 2] : List ℚ), 0 < x) ∧
    exProblemW2.weights.sum = 1 :=
  ⟨by norm_num [PrometheeProblem.new, AlternativeTable.n, AlternativeTable.q, mapMOpt,
    argsortAsc, sortByKey, insertLe, fksOf, AlternativeTable.performance, Alternative.perf,
    List.get?, List.range_succ, exTableW2, exProblemW2], by decide, by decide,
   C9_weights_sum_one exTableW2
     [GeneralizedCriterion.Usual, GeneralizedCriterion.Usual] [2, 2] exProblemW2
     (by norm_num [PrometheeProblem.new, AlternativeTable.n, AlternativeTable.q, mapMOpt,
    argsortAsc, sortByKey, insertLe, fksOf, AlternativeTable.performance, Alternative.perf,
    List.get?, List.range_succ, exTableW2, exProblemW2]) (by decide) (by decide)⟩

/-- C10: for an out-of-range alternative index `i ≥ n`, both
`set_performance` and `shift_performance` return normally and leave the table
unchanged, for any criterion index and value. -/
theorem C10_out_of_range_noop (t : AlternativeTable) (i k : ℕ) (val shift : ℚ)
    (hi : t.alternatives.length ≤ i) :
    t.set_performance i k val = some t ∧ t.shift_performance i k shift = some t := by
  have hnone : t.alternatives.get? i = none := List.get?_eq_none.2 hi
  constructor
  · unfold AlternativeTable.set_performance
    rw [hnone]
  · unfold AlternativeTable.shift_performance
    rw [hnone]

/-- Witness for C10 on `exTable2` with `i = 5`. -/
theorem C10_out_of_range_noop_witness :
    exTable2.alternatives.length ≤ 5 ∧
    (exTable2.set_performance 5 0 7 = some exTable2 ∧
     exTable2.shift_performance 5 0 1 = some exTable2) :=
  ⟨by decide, C10_out_of_range_noop exTable2 5 0 7 1 (by decide)⟩

end Promethee
